import Mathlib

/-!
# Verification of the CSP propagation engine

Shallow embedding of `src/propagators.py` (the propagators `prop_BT`,
`prop_FC`, `prop_FI`) and of the cage-constraint tuple construction in
`src/puzzle_csp.py` (`caged_csp`), together with proofs of the behavioural
claims about them.

The collaborator classes `Variable`, `Constraint` and `CSP` (the `cspbase`
module) are not part of the sources; their operations
(`cur_domain`, `prune_value`, `get_assigned_value`, `check`, `has_support`,
`get_n_unasgn`, `get_unasgn_vars`, `get_all_cons`, `get_cons_with_var`,
`get_all_vars`) are modelled from the specification's data-model and
interface sections (spec sections 3 and 6).

Variables are identified by natural-number indices; values are naturals.
A `State` carries, for each variable index, its current domain (a list,
order-irrelevant) and its optional assigned value.  Propagators are pure
functions from a state to a verdict, a pruning trace and a new state.
-/

/-- Modelled from the spec: the Domain Store.  Per-variable current
candidate set (`doms`, indexed by variable number) and assigned-value slot
(`assigns`).  The pruning log of the Python `Variable` is not needed here
because the propagators return their own trace. -/
structure State where
  doms : List (List Nat)
  assigns : List (Option Nat)
deriving DecidableEq, Repr

/-- Modelled from the spec: `currentDomain()` of a variable. -/
def curDomain (s : State) (v : Nat) : List Nat :=
  s.doms.getD v []

/-- Modelled from the spec: `currentDomainSize()` (`cur_domain_size`). -/
def curSize (s : State) (v : Nat) : Nat :=
  (curDomain s v).length

/-- Modelled from the spec: `assignedValue()` (`get_assigned_value`),
`none` when the variable is unassigned. -/
def assignedValue (s : State) (v : Nat) : Option Nat :=
  s.assigns.getD v none

/-- Modelled from the spec: `pruneValue(value)` removes the value from the
variable's current domain. -/
def pruneValue (s : State) (v : Nat) (d : Nat) : State :=
  { s with doms := s.doms.set v ((s.doms.getD v []).erase d) }

/-- Modelled from the spec: a constraint is an ordered scope (variable
indices) and a satisfaction predicate realized as an explicit enumerated
set of admissible tuples (`add_satisfying_tuples`), positionally aligned
with the scope. -/
structure Constraint where
  scope : List Nat
  satTuples : List (List Nat)
deriving DecidableEq, Repr

/-- Modelled from the spec: `check(valueTuple)` - the tuple is accepted
exactly when it is one of the enumerated satisfying tuples. -/
def Constraint.check (c : Constraint) (t : List Nat) : Bool :=
  decide (t ∈ c.satTuples)

/-- Python builds value tuples with `get_assigned_value()`, which yields
`None` for an unassigned variable; a tuple containing `None` is never equal
to a tuple of values, so `check` rejects it.  `checkOpt` reproduces this:
it accepts an optional tuple iff all entries are present and the resulting
value tuple is accepted. -/
def optList : List (Option Nat) → Option (List Nat)
  | [] => some []
  | none :: _ => none
  | some x :: xs => (optList xs).map (fun t => x :: t)

/-- `check` on a tuple of optional values (see `optList`). -/
def checkOpt (c : Constraint) (t : List (Option Nat)) : Bool :=
  match optList t with
  | some vs => c.check vs
  | none => false

/-- Modelled from the spec: a CSP instance owns all variables (their
indices) and all constraints. -/
structure CSP where
  vars : List Nat
  cons : List Constraint
deriving DecidableEq, Repr

/-- Modelled from the spec: `get_cons_with_var` - the constraints whose
scope contains the given variable. -/
def getConsWithVar (csp : CSP) (v : Nat) : List Constraint :=
  csp.cons.filter (fun c => decide (v ∈ c.scope))

/-- Modelled from the spec: `get_unasgn_vars` - the unassigned variables
of a constraint's scope, in scope order. -/
def getUnasgnVars (s : State) (c : Constraint) : List Nat :=
  c.scope.filter (fun v => (assignedValue s v).isNone)

/-- Modelled from the spec: `get_n_unasgn` - how many scope variables are
unassigned. -/
def getNUnasgn (s : State) (c : Constraint) : Nat :=
  (getUnasgnVars s c).length

/-- All full-scope tuples obtainable by pinning every occurrence of `v` to
`d` and drawing every other position from that variable's current domain.
Helper for `hasSupport`. -/
def supportChoices (s : State) (v d : Nat) : List Nat → List (List Nat)
  | [] => [[]]
  | w :: ws =>
      (if w = v then [d] else curDomain s w).flatMap
        (fun x => (supportChoices s v d ws).map (fun t => x :: t))

/-- Modelled from the spec: `hasSupport(variable, value)` - whether some
assignment to the constraint's other scope variables, drawn from their
current domains, together with `v = d` satisfies the constraint. -/
def hasSupport (c : Constraint) (v d : Nat) (s : State) : Bool :=
  (supportChoices s v d c.scope).any c.check

/-- The generalized-arc-consistency property (spec glossary): every value
remaining in every variable's current domain has support in every
constraint touching it. -/
def isGAC (csp : CSP) (s : State) : Prop :=
  ∀ c ∈ csp.cons, ∀ v ∈ c.scope, ∀ d ∈ curDomain s v, hasSupport c v d s = true

instance (csp : CSP) (s : State) : Decidable (isGAC csp s) := by
  unfold isGAC; infer_instance

/-! ## The propagators (translated from `src/propagators.py`) -/

/-- The body of `prop_BT`'s loop over `csp.get_cons_with_var(newVar)`:
a fully assigned constraint whose assigned tuple fails `check` yields
failure. -/
def btLoop (s : State) : List Constraint → Bool
  | [] => true
  | c :: cs =>
      if getNUnasgn s c = 0 ∧ checkOpt c (c.scope.map (assignedValue s)) = false then
        false
      else btLoop s cs

/-- `prop_BT` from `src/propagators.py`: plain backtracking propagation.
Checks fully instantiated constraints touching the trigger; never prunes. -/
def prop_BT (csp : CSP) (newVar : Option Nat) (s : State) :
    Bool × List (Nat × Nat) × State :=
  match newVar with
  | none => (true, [], s)
  | some v => (btLoop s (getConsWithVar csp v), [], s)

/-- The inner value loop of `prop_FC`: scan the snapshot `ds` of the sole
unassigned variable `u`'s current domain; for each value `d`, build the
full-scope tuple (`d` at `u`'s positions, assigned values elsewhere) and
prune `d` when `check` rejects it, recording `(u, d)`. -/
def fcRevise (c : Constraint) (u : Nat) :
    List Nat → State → List (Nat × Nat) × State
  | [], s => ([], s)
  | d :: ds, s =>
      if checkOpt c (c.scope.map (fun w => if w = u then some d else assignedValue s w)) then
        fcRevise c u ds s
      else
        let res := fcRevise c u ds (pruneValue s u d)
        ((u, d) :: res.1, res.2)

/-- The constraint loop of `prop_FC`: process each constraint with exactly
one unassigned variable; fail as soon as a scan leaves that variable's
current domain empty. -/
def fcLoop : List Constraint → State → Bool × List (Nat × Nat) × State
  | [], s => (true, [], s)
  | c :: cs, s =>
      if getNUnasgn s c = 1 then
        -- `uvar = c.get_unasgn_vars()[0]`; the guard makes the list a singleton
        let u := (getUnasgnVars s c).headD 0
        let res := fcRevise c u (curDomain s u) s
        if curSize res.2 u = 0 then (false, res.1, res.2)
        else
          let rest := fcLoop cs res.2
          (rest.1, res.1 ++ rest.2.1, rest.2.2)
      else fcLoop cs s

/-- `prop_FC` from `src/propagators.py`: forward checking over all
constraints (no trigger) or the constraints touching the trigger. -/
def prop_FC (csp : CSP) (newVar : Option Nat) (s : State) :
    Bool × List (Nat × Nat) × State :=
  fcLoop (match newVar with
          | none => csp.cons
          | some v => getConsWithVar csp v) s

/-- The inner value loop of `prop_FI`: scan the snapshot `ds` of `v`'s
current domain, pruning every value without support in `c` and recording
it; report failure (`true` in the last component) as soon as `v`'s current
domain becomes empty. -/
def fiRevVals (c : Constraint) (v : Nat) :
    List Nat → State → List (Nat × Nat) × State × Bool
  | [], s => ([], s, false)
  | d :: ds, s =>
      if hasSupport c v d s then fiRevVals c v ds s
      else
        let s' := pruneValue s v d
        if curSize s' v = 0 then ([(v, d)], s', true)
        else
          let res := fiRevVals c v ds s'
          ((v, d) :: res.1, res.2.1, res.2.2)

/-- The re-enqueue step of `prop_FI`
(`if v.cur_domain_size() != s and v not in queue: queue.append(v)`):
`s0` is the domain size recorded before the revision, `s'` the state after
it. -/
def enqueueCheck (v : Nat) (s0 : Nat) (s' : State) (q : List Nat) : List Nat :=
  if curSize s' v ≠ s0 ∧ v ∉ q then q ++ [v] else q

/-- The scope loop of `prop_FI` for one constraint `c` of the dequeued
variable `w`: revise every other scope variable `v`, then re-enqueue `v`
when its domain size changed and it is not already queued. -/
def fiRevScope (c : Constraint) (w : Nat) :
    List Nat → State → List Nat → List (Nat × Nat) × State × List Nat × Bool
  | [], s, q => ([], s, q, false)
  | v :: vs, s, q =>
      if v = w then fiRevScope c w vs s q
      else
        let s0 := curSize s v
        let res := fiRevVals c v (curDomain s v) s
        if res.2.2 then (res.1, res.2.1, q, true)
        else
          let rest := fiRevScope c w vs res.2.1 (enqueueCheck v s0 res.2.1 q)
          (res.1 ++ rest.1, rest.2.1, rest.2.2.1, rest.2.2.2)

/-- The constraint loop of one `prop_FI` dequeue: process every constraint
touching `w`, threading the state and the queue. -/
def fiCons (w : Nat) :
    List Constraint → State → List Nat → List (Nat × Nat) × State × List Nat × Bool
  | [], s, q => ([], s, q, false)
  | c :: cs, s, q =>
      let res := fiRevScope c w c.scope s q
      if res.2.2.2 then (res.1, res.2.1, res.2.2.1, true)
      else
        let rest := fiCons w cs res.2.1 res.2.2.1
        (res.1 ++ rest.1, rest.2.1, rest.2.2.1, rest.2.2.2)

/-- Sum of the current domain sizes; together with the queue length this is
the termination measure of `prop_FI`'s worklist loop. -/
def totalDom (s : State) : Nat :=
  (s.doms.map List.length).sum

/-- The worklist loop of `prop_FI` (`while queue: w = queue.pop(0); ...`),
written with explicit fuel; `none` means the fuel ran out.  `fiLoopF_total`
proves that the fuel `fiFuel` always suffices, which is the termination of
the source's unbounded loop. -/
def fiLoopF (csp : CSP) : Nat → List Nat → State → Option (Bool × List (Nat × Nat) × State)
  | 0, _, _ => none
  | _ + 1, [], s => some (true, [], s)
  | fuel + 1, w :: rest, s =>
      let res := fiCons w (getConsWithVar csp w) s rest
      if res.2.2.2 then some (false, res.1, res.2.1)
      else
        match fiLoopF csp fuel res.2.2.1 res.2.1 with
        | none => none
        | some r => some (r.1, res.1 ++ r.2.1, r.2.2)

/-- The initial worklist of `prop_FI`: all variables when there is no
trigger, otherwise just the trigger. -/
def initQueue (csp : CSP) (newVar : Option Nat) : List Nat :=
  match newVar with
  | none => csp.vars
  | some v => [v]

/-- Fuel that provably suffices for `fiLoopF` (see `fiLoopF_total`). -/
def fiFuel (s : State) (q : List Nat) : Nat :=
  totalDom s + q.length + 1

/-- `prop_FI` from `src/propagators.py`: full (generalized arc consistency)
inference via the worklist loop.  The default of `getD` is never used
because `fiFuel` suffices (`fiLoopF_total`). -/
def prop_FI (csp : CSP) (newVar : Option Nat) (s : State) :
    Bool × List (Nat × Nat) × State :=
  (fiLoopF csp (fiFuel s (initQueue csp newVar)) (initQueue csp newVar) s).getD
    (false, [], s)

/-- Every value of `v`'s current domain has support in constraint `c`.
`prop_FI`'s revision of `v` against `c` establishes exactly this. -/
def Supported (c : Constraint) (v : Nat) (s : State) : Prop :=
  ∀ d ∈ curDomain s v, hasSupport c v d s = true

/-- Invariant of `prop_FI`'s worklist loop for the pair `(c, v)`: either
every current value of `v` is supported in `c`, or some other scope
variable of `c` is still queued (so `v` will be revised against `c`
again before the loop can drain). -/
def Good (c : Constraint) (v : Nat) (s : State) (q : List Nat) : Prop :=
  Supported c v s ∨ ∃ u ∈ c.scope, u ≠ v ∧ u ∈ q

/-- The spec's tuple construction for forward checking (spec section 4.2,
written from the spec's words for the refinement proof): at each scope
position an already-assigned variable contributes its assigned value, and
the (sole) unassigned variable contributes the candidate `d`. -/
def fcSpecTuple (s : State) (c : Constraint) (d : Nat) : List (Option Nat) :=
  c.scope.map (fun w =>
    if (assignedValue s w).isSome then assignedValue s w else some d)

/-- Spec-side value scan of forward checking (spec section 4.2): for every
candidate value still in U's current domain, if the predicate rejects the
substituted tuple, remove the value and append (U, value) to the trace. -/
def fcRevise_spec (c : Constraint) (u : Nat) :
    List Nat → State → List (Nat × Nat) × State
  | [], s => ([], s)
  | d :: ds, s =>
      if checkOpt c (fcSpecTuple s c d) then fcRevise_spec c u ds s
      else
        let res := fcRevise_spec c u ds (pruneValue s u d)
        ((u, d) :: res.1, res.2)

/-- Spec-side constraint loop of forward checking (spec section 4.2):
process each constraint with exactly one unassigned scope variable U;
after scanning all of U's candidates, if U's current domain is empty,
return failure with the trace accumulated so far. -/
def fcLoop_spec : List Constraint → State → Bool × List (Nat × Nat) × State
  | [], s => (true, [], s)
  | c :: cs, s =>
      match getUnasgnVars s c with
      | [u] =>
          let res := fcRevise_spec c u (curDomain s u) s
          if curSize res.2 u = 0 then (false, res.1, res.2)
          else
            let rest := fcLoop_spec cs res.2
            (rest.1, res.1 ++ rest.2.1, rest.2.2)
      | _ => fcLoop_spec cs s

/-- Spec-side forward checking (spec section 4.2): the relevant constraint
set is all constraints with no trigger, else the constraints touching the
trigger. -/
def prop_FC_spec (csp : CSP) (newVar : Option Nat) (s : State) :
    Bool × List (Nat × Nat) × State :=
  fcLoop_spec (match newVar with
               | none => csp.cons
               | some v => getConsWithVar csp v) s

/-! Definitions for the cage constraints of `caged_csp`
(`src/puzzle_csp.py`). -/

/-- The domain `1..n` of a FunPuzz grid (`dom = list(range(1, n+1))`). -/
def puzzleDom (n : Nat) : List Int :=
  (List.range n).map (fun i => (i : Int) + 1)

/-- All tuples of length `k` with entries drawn from `dom`
(`itertools.product(dom, repeat=k)`). -/
def tuplesOf (dom : List Int) : Nat → List (List Int)
  | 0 => [[]]
  | k + 1 => dom.flatMap (fun x => (tuplesOf dom k).map (fun t => x :: t))

/-- The subtraction-cage test of `caged_csp` (operation code 1):
`(t[0] - sum(t[1:])) == cage_res`. -/
def subPred (target : Int) : List Int → Bool
  | [] => false
  | t0 :: rest => decide (t0 - rest.sum = target)

/-- The division-cage test of `caged_csp` (operation code 2):
`(t[0] / math.prod(t[1:])) == cage_res`; the real division of the source
is modelled exactly over the rationals (domain entries are positive, so
the product is nonzero). -/
def divPred (target : Int) : List Int → Bool
  | [] => false
  | t0 :: rest =>
      decide ((t0 : ℚ) / (rest.map (fun x => (x : ℚ))).prod = (target : ℚ))

/-- All ways to insert `x` into a list; building block of `permsOf`. -/
def insertsOf (x : Int) : List Int → List (List Int)
  | [] => [[x]]
  | y :: ys => (x :: y :: ys) :: (insertsOf x ys).map (fun l => y :: l)

/-- All permutations of a list (`itertools.permutations(t)`; the
enumeration order is irrelevant, only membership matters). -/
def permsOf : List Int → List (List Int)
  | [] => [[]]
  | x :: xs => (permsOf xs).flatMap (insertsOf x)

/-- Append every permutation of `t` that is not already present
(`perms = itertools.permutations(t); unique_perms = set(perms);
for perm in unique_perms: if perm not in sat_tuples:
sat_tuples.append(perm)`). -/
def addPerms (acc : List (List Int)) (t : List Int) : List (List Int) :=
  (permsOf t).foldl (fun a p => if p ∈ a then a else a ++ [p]) acc

/-- The satisfying-tuple list `caged_csp` builds for a subtraction or
division cage: for every candidate tuple over the domain that passes the
test, insert all of its permutations. -/
def cageSatTuples (pred : List Int → Bool) (dom : List Int) (k : Nat) :
    List (List Int) :=
  (tuplesOf dom k).foldl (fun acc t => if pred t then addPerms acc t else acc) []

/-- Replay of a pruning trace over a state: fold `pruneValue` over the
trace.  Each step of `prop_FI`'s loop mutates the state by exactly one
`pruneValue` per trace entry (`fiLoopF_replay`), so replaying the first
`i` trace entries over the pre-call state yields exactly the state that
was current at the moment the `i`-th traced prune happened. -/
def replayPrunes (s : State) (tr : List (Nat × Nat)) : State :=
  tr.foldl (fun st p => pruneValue st p.1 p.2) s

-- Sanity checks on the spec's section-8 scenarios.

-- plain backtracking: two variables domain [1,2], not-equal, both assigned 1
example :
    prop_BT ⟨[0, 1], [⟨[0, 1], [[1, 2], [2, 1]]⟩]⟩ (some 1)
      ⟨[[1, 2], [1, 2]], [some 1, some 1]⟩ =
    (false, [], ⟨[[1, 2], [1, 2]], [some 1, some 1]⟩) := by decide

-- forward checking: A,B,C in [1,2,3], pairwise not-equal, A assigned 1
example :
    (prop_FC ⟨[0, 1, 2],
      [⟨[0, 1], [[1, 2], [1, 3], [2, 1], [2, 3], [3, 1], [3, 2]]⟩,
       ⟨[0, 2], [[1, 2], [1, 3], [2, 1], [2, 3], [3, 1], [3, 2]]⟩,
       ⟨[1, 2], [[1, 2], [1, 3], [2, 1], [2, 3], [3, 1], [3, 2]]⟩]⟩ (some 0)
      ⟨[[1], [1, 2, 3], [1, 2, 3]], [some 1, none, none]⟩).2.1 = [(1, 1), (2, 1)] := by
  decide

-- full inference, X+Y=3 over [1,2,3,4]: prunes 3,4 from both variables
example :
    (prop_FI ⟨[0, 1], [⟨[0, 1], [[1, 2], [2, 1]]⟩]⟩ none
      ⟨[[1, 2, 3, 4], [1, 2, 3, 4]], [none, none]⟩).2.2.doms =
    [[1, 2], [1, 2]] := by decide

-- dead end via GAC: X+Y=3 but X pre-pruned to [4]
example :
    (prop_FI ⟨[0, 1], [⟨[0, 1], [[1, 2], [2, 1]]⟩]⟩ none
      ⟨[[4], [1, 2, 3, 4]], [none, none]⟩).1 = false := by decide

/-! ## Basic facts about the domain store -/

theorem getD_set_self (l : List (List Nat)) (i : Nat) (x : List Nat) :
    (l.set i x).getD i [] = if i < l.length then x else [] := by
  induction l generalizing i with
  | nil => simp [List.set]
  | cons a as ih =>
      cases i with
      | zero => simp [List.set]
      | succ n => simpa [List.set, Nat.succ_lt_succ_iff] using ih n

theorem getD_set_other (l : List (List Nat)) (i j : Nat) (x : List Nat)
    (h : j ≠ i) : (l.set i x).getD j [] = l.getD j [] := by
  induction l generalizing i j with
  | nil => simp [List.set]
  | cons a as ih =>
      cases i with
      | zero =>
          cases j with
          | zero => exact absurd rfl h
          | succ m => simp [List.set]
      | succ n =>
          cases j with
          | zero => simp [List.set]
          | succ m => simpa [List.set] using ih n m (by omega)

theorem set_of_length_le (l : List (List Nat)) (i : Nat) (x : List Nat)
    (h : l.length ≤ i) : l.set i x = l := by
  induction l generalizing i with
  | nil => simp
  | cons a as ih =>
      cases i with
      | zero => simp at h
      | succ n => simp [List.set, ih n (by simpa using h)]

theorem getD_oob (l : List (List Nat)) (i : Nat) (h : l.length ≤ i) :
    l.getD i [] = [] := by
  induction l generalizing i with
  | nil => simp
  | cons a as ih =>
      cases i with
      | zero => simp at h
      | succ n => simpa using ih n (by simpa using h)

theorem curDomain_prune_self (s : State) (v d : Nat) :
    curDomain (pruneValue s v d) v = (curDomain s v).erase d := by
  simp only [curDomain, pruneValue]
  by_cases h : v < s.doms.length
  · rw [getD_set_self]
    simp [h]
  · have h' : s.doms.length ≤ v := Nat.le_of_not_lt h
    rw [set_of_length_le _ _ _ h', getD_oob _ _ h']
    rfl

theorem curDomain_prune_other (s : State) (v d u : Nat) (h : u ≠ v) :
    curDomain (pruneValue s v d) u = curDomain s u := by
  simp only [curDomain, pruneValue]
  exact getD_set_other s.doms v u _ h

theorem assigns_prune (s : State) (v d : Nat) :
    (pruneValue s v d).assigns = s.assigns := rfl

theorem assignedValue_prune (s : State) (v d u : Nat) :
    assignedValue (pruneValue s v d) u = assignedValue s u := rfl

theorem curDomain_prune_sublist (s : State) (v d u : Nat) :
    List.Sublist (curDomain (pruneValue s v d) u) (curDomain s u) := by
  by_cases h : u = v
  · subst h
    rw [curDomain_prune_self]
    exact List.erase_sublist _ _
  · rw [curDomain_prune_other _ _ _ _ h]

theorem sum_map_length_set (l : List (List Nat)) (i : Nat) (x : List Nat)
    (h : i < l.length) :
    ((l.set i x).map List.length).sum + (l.getD i []).length =
      (l.map List.length).sum + x.length := by
  induction l generalizing i with
  | nil => simp at h
  | cons a as ih =>
      cases i with
      | zero =>
          simp only [List.set_cons_zero, List.map_cons, List.sum_cons,
            List.getD_cons_zero]
          omega
      | succ n =>
          have hn := ih n (by simpa [Nat.succ_lt_succ_iff] using h)
          simp only [List.set_cons_succ, List.map_cons, List.sum_cons,
            List.getD_cons_succ]
          omega

theorem totalDom_prune (s : State) (v d : Nat) :
    totalDom (pruneValue s v d) + curSize s v =
      totalDom s + curSize (pruneValue s v d) v := by
  have hself := curDomain_prune_self s v d
  by_cases h : v < s.doms.length
  · have hset := sum_map_length_set s.doms v ((s.doms.getD v []).erase d) h
    simp only [totalDom, pruneValue, curSize, curDomain] at hself ⊢
    rw [hself]
    omega
  · have h' : s.doms.length ≤ v := Nat.le_of_not_lt h
    simp only [totalDom, pruneValue, curSize, curDomain,
      set_of_length_le _ _ _ h']

theorem curSize_prune_le (s : State) (v d : Nat) :
    curSize (pruneValue s v d) v ≤ curSize s v :=
  (curDomain_prune_sublist s v d v).length_le

theorem totalDom_prune_le (s : State) (v d : Nat) :
    totalDom (pruneValue s v d) ≤ totalDom s := by
  have h1 := totalDom_prune s v d
  have h2 := curSize_prune_le s v d
  omega

/-! ## Frame and monotonicity properties of `hasSupport` -/

theorem supportChoices_frame (s s' : State) (v d : Nat) (ws : List Nat)
    (h : ∀ w ∈ ws, w ≠ v → curDomain s' w = curDomain s w) :
    supportChoices s' v d ws = supportChoices s v d ws := by
  induction ws with
  | nil => rfl
  | cons w ws ih =>
      have hrest : supportChoices s' v d ws = supportChoices s v d ws :=
        ih (fun x hx => h x (List.mem_cons_of_mem _ hx))
      by_cases hw : w = v
      · simp [supportChoices, hw, hrest]
      · simp [supportChoices, hw, hrest, h w (List.mem_cons_self _ _) hw]

theorem hasSupport_frame (c : Constraint) (v d : Nat) (s s' : State)
    (h : ∀ w ∈ c.scope, w ≠ v → curDomain s' w = curDomain s w) :
    hasSupport c v d s' = hasSupport c v d s := by
  unfold hasSupport
  rw [supportChoices_frame s s' v d c.scope h]

theorem supportChoices_mono (s s' : State) (v d : Nat) (ws : List Nat)
    (h : ∀ w, curDomain s' w ⊆ curDomain s w) (t : List Nat)
    (ht : t ∈ supportChoices s' v d ws) : t ∈ supportChoices s v d ws := by
  induction ws generalizing t with
  | nil => simpa [supportChoices] using ht
  | cons w ws ih =>
      simp only [supportChoices, List.mem_flatMap, List.mem_map] at ht ⊢
      obtain ⟨x, hx, t', ht', rfl⟩ := ht
      refine ⟨x, ?_, t', ih t' ht', rfl⟩
      by_cases hw : w = v
      · simpa [hw] using hx
      · simp only [if_neg hw] at hx ⊢
        exact h w hx

theorem hasSupport_mono (c : Constraint) (v d : Nat) (s s' : State)
    (h : ∀ w, curDomain s' w ⊆ curDomain s w)
    (hs : hasSupport c v d s' = true) : hasSupport c v d s = true := by
  unfold hasSupport at hs ⊢
  rw [List.any_eq_true] at hs ⊢
  obtain ⟨t, ht, hc⟩ := hs
  exact ⟨t, supportChoices_mono s s' v d c.scope h t ht, hc⟩

theorem hasSupport_antitone (c : Constraint) (v d : Nat) (s s' : State)
    (h : ∀ w, curDomain s' w ⊆ curDomain s w)
    (hs : hasSupport c v d s = false) : hasSupport c v d s' = false := by
  cases hval : hasSupport c v d s' with
  | false => rfl
  | true =>
      have := hasSupport_mono c v d s s' h hval
      rw [this] at hs
      exact Bool.noConfusion hs

/-! ## Properties of the inner value loop of `prop_FI` -/

theorem fiRevVals_assigns (c : Constraint) (v : Nat) (ds : List Nat) (s : State) :
    (fiRevVals c v ds s).2.1.assigns = s.assigns := by
  induction ds generalizing s with
  | nil => rfl
  | cons d ds ih =>
      simp only [fiRevVals]
      split
      · exact ih s
      · split
        · rfl
        · rw [ih (pruneValue s v d)]
          rfl

theorem fiRevVals_doms_other (c : Constraint) (v : Nat) (ds : List Nat)
    (s : State) (u : Nat) (h : u ≠ v) :
    curDomain (fiRevVals c v ds s).2.1 u = curDomain s u := by
  induction ds generalizing s with
  | nil => rfl
  | cons d ds ih =>
      simp only [fiRevVals]
      split
      · exact ih s
      · split
        · exact curDomain_prune_other s v d u h
        · rw [ih (pruneValue s v d), curDomain_prune_other s v d u h]

theorem fiRevVals_sublist (c : Constraint) (v : Nat) (ds : List Nat)
    (s : State) (u : Nat) :
    List.Sublist (curDomain (fiRevVals c v ds s).2.1 u) (curDomain s u) := by
  induction ds generalizing s with
  | nil => exact List.Sublist.refl _
  | cons d ds ih =>
      simp only [fiRevVals]
      split
      · exact ih s
      · split
        · exact curDomain_prune_sublist s v d u
        · exact (ih (pruneValue s v d)).trans (curDomain_prune_sublist s v d u)

theorem fiRevVals_totalDom (c : Constraint) (v : Nat) (ds : List Nat) (s : State) :
    totalDom (fiRevVals c v ds s).2.1 + curSize s v =
      totalDom s + curSize (fiRevVals c v ds s).2.1 v := by
  induction ds generalizing s with
  | nil => rfl
  | cons d ds ih =>
      simp only [fiRevVals]
      split
      · exact ih s
      · split
        · exact totalDom_prune s v d
        · dsimp only
          have h1 := ih (pruneValue s v d)
          have h2 := totalDom_prune s v d
          omega

theorem fiRevVals_totalDom_le (c : Constraint) (v : Nat) (ds : List Nat) (s : State) :
    totalDom (fiRevVals c v ds s).2.1 ≤ totalDom s := by
  have h1 := fiRevVals_totalDom c v ds s
  have h2 : curSize (fiRevVals c v ds s).2.1 v ≤ curSize s v :=
    (fiRevVals_sublist c v ds s v).length_le
  omega

theorem fiRevVals_trace (c : Constraint) (v : Nat) (ds : List Nat) (s : State) :
    ∀ p ∈ (fiRevVals c v ds s).1, p.1 = v ∧ p.2 ∈ ds := by
  induction ds generalizing s with
  | nil => intro p hp; exact absurd hp (List.not_mem_nil p)
  | cons d ds ih =>
      simp only [fiRevVals]
      split
      · intro p hp
        obtain ⟨h1, h2⟩ := ih s p hp
        exact ⟨h1, List.mem_cons_of_mem _ h2⟩
      · split
        · intro p hp
          rw [List.mem_singleton] at hp
          subst hp
          exact ⟨rfl, List.mem_cons_self _ _⟩
        · intro p hp
          rcases List.mem_cons.mp hp with h | h
          · subst h
            exact ⟨rfl, List.mem_cons_self _ _⟩
          · obtain ⟨h1, h2⟩ := ih (pruneValue s v d) p h
            exact ⟨h1, List.mem_cons_of_mem _ h2⟩

theorem fiRevVals_unsupported (c : Constraint) (v : Nat) (ds : List Nat) (s : State) :
    ∀ p ∈ (fiRevVals c v ds s).1,
      hasSupport c v p.2 (fiRevVals c v ds s).2.1 = false := by
  induction ds generalizing s with
  | nil => intro p hp; exact absurd hp (List.not_mem_nil p)
  | cons d ds ih =>
      simp only [fiRevVals]
      split
      · exact ih s
      · next hsup =>
          have hsup' : hasSupport c v d s = false := by
            cases hval : hasSupport c v d s with
            | false => rfl
            | true => exact absurd hval hsup
          split
          · intro p hp
            rw [List.mem_singleton] at hp
            subst hp
            rw [hasSupport_frame c v d s (pruneValue s v d)
              (fun w _ hne => curDomain_prune_other s v d w hne)]
            exact hsup'
          · intro p hp
            rcases List.mem_cons.mp hp with h | h
            · subst h
              have hframe : ∀ w ∈ c.scope, w ≠ v →
                  curDomain (fiRevVals c v ds (pruneValue s v d)).2.1 w =
                    curDomain s w := by
                intro w _ hne
                rw [fiRevVals_doms_other c v ds (pruneValue s v d) w hne,
                  curDomain_prune_other s v d w hne]
              rw [hasSupport_frame c v d s _ hframe]
              exact hsup'
            · exact ih (pruneValue s v d) p h

theorem fiRevVals_mem (c : Constraint) (v : Nat) (ds : List Nat) (s : State) :
    ∀ u e, e ∈ curDomain s u →
      e ∈ curDomain (fiRevVals c v ds s).2.1 u ∨ (u, e) ∈ (fiRevVals c v ds s).1 := by
  induction ds generalizing s with
  | nil => intro u e he; exact Or.inl he
  | cons d ds ih =>
      simp only [fiRevVals]
      split
      · exact ih s
      · split
        · intro u e he
          by_cases hu : u = v
          · subst hu
            by_cases hee : e ∈ (curDomain s u).erase d
            · left
              rw [curDomain_prune_self]
              exact hee
            · right
              have : e = d := by
                by_contra hne
                exact hee ((List.mem_erase_of_ne hne).mpr he)
              subst this
              exact List.mem_singleton.mpr rfl
          · left
            rw [curDomain_prune_other s v d u hu]
            exact he
        · intro u e he
          by_cases hu : u = v
          · subst hu
            by_cases hee : e ∈ (curDomain s u).erase d
            · have he' : e ∈ curDomain (pruneValue s u d) u := by
                rw [curDomain_prune_self]
                exact hee
              rcases ih (pruneValue s u d) u e he' with h | h
              · exact Or.inl h
              · exact Or.inr (List.mem_cons_of_mem _ h)
            · right
              have : e = d := by
                by_contra hne
                exact hee ((List.mem_erase_of_ne hne).mpr he)
              subst this
              exact List.mem_cons_self _ _
          · have he' : e ∈ curDomain (pruneValue s v d) u := by
              rw [curDomain_prune_other s v d u hu]
              exact he
            rcases ih (pruneValue s v d) u e he' with h | h
            · exact Or.inl h
            · exact Or.inr (List.mem_cons_of_mem _ h)

theorem fiRevVals_complete (c : Constraint) (v : Nat) (ds : List Nat) (s : State)
    (hcount : ∀ e, hasSupport c v e s = false →
      (curDomain s v).count e ≤ ds.count e)
    (hf : (fiRevVals c v ds s).2.2 = false) :
    ∀ e ∈ curDomain (fiRevVals c v ds s).2.1 v,
      hasSupport c v e (fiRevVals c v ds s).2.1 = true := by
  induction ds generalizing s with
  | nil =>
      intro e he
      cases hval : hasSupport c v e s with
      | true => exact hval
      | false =>
          have := hcount e hval
          simp only [List.count_nil, Nat.le_zero] at this
          rw [List.count_eq_zero] at this
          exact absurd he this
  | cons d ds ih =>
      simp only [fiRevVals] at hf ⊢
      split at hf
      · next hsup =>
          rw [if_pos hsup]
          refine ih s ?_ hf
          intro e he
          have hed : e ≠ d := by
            intro heq
            subst heq
            rw [he] at hsup
            exact Bool.noConfusion hsup
          have := hcount e he
          rw [List.count_cons_of_ne hed] at this
          exact this
      · next hsup =>
          split at hf
          · exact absurd hf (by simp)
          · next hsz =>
              rw [if_neg hsup, if_neg hsz]
              refine ih (pruneValue s v d) ?_ hf
              intro e he
              have he' : hasSupport c v e s = false := by
                rw [← hasSupport_frame c v e s (pruneValue s v d)
                  (fun w _ hne => curDomain_prune_other s v d w hne)]
                exact he
              have h0 := hcount e he'
              rw [curDomain_prune_self]
              by_cases hed : e = d
              · subst hed
                rw [List.count_erase_self]
                rw [List.count_cons_self] at h0
                omega
              · rw [List.count_erase_of_ne hed]
                rw [List.count_cons_of_ne hed] at h0
                exact h0

theorem fiRevVals_nonempty (c : Constraint) (v : Nat) (ds : List Nat) (s : State)
    (hf : (fiRevVals c v ds s).2.2 = false) :
    ∀ u, curDomain s u ≠ [] → curDomain (fiRevVals c v ds s).2.1 u ≠ [] := by
  induction ds generalizing s with
  | nil => intro u h; exact h
  | cons d ds ih =>
      simp only [fiRevVals] at hf ⊢
      split at hf
      · next hsup =>
          rw [if_pos hsup]
          exact ih s hf
      · next hsup =>
          split at hf
          · exact absurd hf (by simp)
          · next hsz =>
              rw [if_neg hsup, if_neg hsz]
              intro u hu
              by_cases huv : u = v
              · subst huv
                refine ih (pruneValue s u d) hf u ?_
                intro hcontra
                apply hsz
                simp only [curSize, hcontra, List.length_nil]
              · refine ih (pruneValue s v d) hf u ?_
                rw [curDomain_prune_other s v d u huv]
                exact hu

theorem fiRevVals_c8 (c : Constraint) (v : Nat) (ds : List Nat) (s : State)
    (hnd : (curDomain s v).Nodup) (hds : ds.Nodup)
    (hsub : ∀ e ∈ ds, e ∈ curDomain s v) :
    List.Sublist ((fiRevVals c v ds s).1.map Prod.snd) ds ∧
    (∀ p ∈ (fiRevVals c v ds s).1, p.2 ∉ curDomain (fiRevVals c v ds s).2.1 v) ∧
    curSize (fiRevVals c v ds s).2.1 v + (fiRevVals c v ds s).1.length = curSize s v ∧
    (curDomain (fiRevVals c v ds s).2.1 v).Nodup := by
  induction ds generalizing s with
  | nil =>
      refine ⟨List.Sublist.refl _, ?_, rfl, hnd⟩
      intro p hp
      exact absurd hp (List.not_mem_nil p)
  | cons d ds ih =>
      have hdmem : d ∈ curDomain s v := hsub d (List.mem_cons_self _ _)
      simp only [fiRevVals]
      split
      · obtain ⟨h1, h2, h3, h4⟩ :=
          ih s hnd (List.Nodup.of_cons hds)
            (fun e he => hsub e (List.mem_cons_of_mem _ he))
        exact ⟨h1.cons d, h2, h3, h4⟩
      · split
        · refine ⟨(List.nil_sublist ds).cons₂ d, ?_, ?_, ?_⟩
          · intro p hp
            rw [List.mem_singleton] at hp
            subst hp
            rw [curDomain_prune_self]
            intro hmem
            exact (hnd.mem_erase_iff.mp hmem).1 rfl
          · have hlen := List.length_erase_of_mem hdmem
            have hpos := List.length_pos_of_mem hdmem
            simp only [curSize, curDomain_prune_self, List.length_singleton, hlen]
            omega
          · rw [curDomain_prune_self]
            exact hnd.erase d
        · have hnd' : (curDomain (pruneValue s v d) v).Nodup := by
            rw [curDomain_prune_self]
            exact hnd.erase d
          have hsub' : ∀ e ∈ ds, e ∈ curDomain (pruneValue s v d) v := by
            intro e he
            rw [curDomain_prune_self]
            have hed : e ≠ d := by
              intro heq
              subst heq
              exact (List.nodup_cons.mp hds).1 he
            exact (List.mem_erase_of_ne hed).mpr (hsub e (List.mem_cons_of_mem _ he))
          obtain ⟨h1, h2, h3, h4⟩ :=
            ih (pruneValue s v d) hnd' (List.Nodup.of_cons hds) hsub'
          dsimp only
          refine ⟨?_, ?_, ?_, h4⟩
          · simpa using h1.cons₂ d
          · intro p hp
            rcases List.mem_cons.mp hp with h | h
            · subst h
              intro hmem
              have hsubl := fiRevVals_sublist c v ds (pruneValue s v d) v
              have : d ∈ curDomain (pruneValue s v d) v := hsubl.subset hmem
              rw [curDomain_prune_self] at this
              exact (hnd.mem_erase_iff.mp this).1 rfl
            · exact h2 p h
          · have hlen := List.length_erase_of_mem hdmem
            have hpos := List.length_pos_of_mem hdmem
            have h3' : curSize (pruneValue s v d) v = curSize s v - 1 := by
              simp only [curSize, curDomain_prune_self, hlen]
            simp only [List.length_cons]
            omega

/-! ## Properties of the scope loop of `prop_FI` -/

theorem mem_enqueueCheck (v : Nat) (s0 : Nat) (s' : State) (q : List Nat) :
    ∀ x ∈ q, x ∈ enqueueCheck v s0 s' q := by
  intro x hx
  unfold enqueueCheck
  split
  · exact List.mem_append_left _ hx
  · exact hx

theorem self_mem_enqueueCheck (v : Nat) (s0 : Nat) (s' : State) (q : List Nat)
    (h : curSize s' v ≠ s0) : v ∈ enqueueCheck v s0 s' q := by
  unfold enqueueCheck
  by_cases hq : v ∈ q
  · split
    · exact List.mem_append_left _ hq
    · exact hq
  · rw [if_pos ⟨h, hq⟩]
    exact List.mem_append_right _ (List.mem_singleton.mpr rfl)

theorem enqueueCheck_length (v : Nat) (s0 : Nat) (s' : State) (q : List Nat) :
    (enqueueCheck v s0 s' q).length = q.length ∨
      ((enqueueCheck v s0 s' q).length = q.length + 1 ∧ curSize s' v ≠ s0) := by
  unfold enqueueCheck
  split
  · next h =>
      right
      exact ⟨by simp, h.1⟩
  · left
    rfl

theorem fiRevScope_assigns (c : Constraint) (w : Nat) (vs : List Nat)
    (s : State) (q : List Nat) :
    (fiRevScope c w vs s q).2.1.assigns = s.assigns := by
  induction vs generalizing s q with
  | nil => rfl
  | cons v vs ih =>
      simp only [fiRevScope]
      split
      · exact ih s q
      · split
        · exact fiRevVals_assigns c v (curDomain s v) s
        · dsimp only
          rw [ih _ _, fiRevVals_assigns]

theorem fiRevScope_sublist (c : Constraint) (w : Nat) (vs : List Nat)
    (s : State) (q : List Nat) (u : Nat) :
    List.Sublist (curDomain (fiRevScope c w vs s q).2.1 u) (curDomain s u) := by
  induction vs generalizing s q with
  | nil => exact List.Sublist.refl _
  | cons v vs ih =>
      simp only [fiRevScope]
      split
      · exact ih s q
      · split
        · exact fiRevVals_sublist c v (curDomain s v) s u
        · dsimp only
          exact (ih _ _).trans (fiRevVals_sublist c v (curDomain s v) s u)

theorem fiRevScope_queue_mono (c : Constraint) (w : Nat) (vs : List Nat)
    (s : State) (q : List Nat) :
    ∀ x ∈ q, x ∈ (fiRevScope c w vs s q).2.2.1 := by
  induction vs generalizing s q with
  | nil => intro x hx; exact hx
  | cons v vs ih =>
      simp only [fiRevScope]
      split
      · exact ih s q
      · split
        · intro x hx; exact hx
        · dsimp only
          intro x hx
          exact ih _ _ x (mem_enqueueCheck v (curSize s v) _ q x hx)

theorem fiRevScope_measure (c : Constraint) (w : Nat) (vs : List Nat)
    (s : State) (q : List Nat) :
    totalDom (fiRevScope c w vs s q).2.1 + (fiRevScope c w vs s q).2.2.1.length ≤
      totalDom s + q.length := by
  induction vs generalizing s q with
  | nil => exact Nat.le_refl _
  | cons v vs ih =>
      simp only [fiRevScope]
      split
      · exact ih s q
      · split
        · dsimp only
          have := fiRevVals_totalDom_le c v (curDomain s v) s
          omega
        · dsimp only
          have hih := ih (fiRevVals c v (curDomain s v) s).2.1
            (enqueueCheck v (curSize s v) (fiRevVals c v (curDomain s v) s).2.1 q)
          have heq := fiRevVals_totalDom c v (curDomain s v) s
          have hle : curSize (fiRevVals c v (curDomain s v) s).2.1 v ≤ curSize s v :=
            (fiRevVals_sublist c v (curDomain s v) s v).length_le
          rcases enqueueCheck_length v (curSize s v)
              (fiRevVals c v (curDomain s v) s).2.1 q with h | ⟨h1, h2⟩
          · omega
          · omega

theorem fiRevScope_changed (c : Constraint) (w : Nat) (vs : List Nat)
    (s : State) (q : List Nat)
    (hf : (fiRevScope c w vs s q).2.2.2 = false) :
    ∀ u, curDomain (fiRevScope c w vs s q).2.1 u ≠ curDomain s u →
      u ∈ vs ∧ u ∈ (fiRevScope c w vs s q).2.2.1 := by
  induction vs generalizing s q with
  | nil => intro u hu; exact absurd rfl hu
  | cons v vs ih =>
      simp only [fiRevScope] at hf ⊢
      split at hf
      · next hvw =>
          rw [if_pos hvw]
          intro u hu
          obtain ⟨h1, h2⟩ := ih s q hf u hu
          exact ⟨List.mem_cons_of_mem _ h1, h2⟩
      · next hvw =>
          rw [if_neg hvw]
          split at hf
          · exact absurd hf (by simp)
          · next hfail =>
              rw [if_neg hfail]
              dsimp only at hf ⊢
              intro u hu
              by_cases hhead :
                  curDomain (fiRevVals c v (curDomain s v) s).2.1 u = curDomain s u
              · have hrest : curDomain (fiRevScope c w vs
                    (fiRevVals c v (curDomain s v) s).2.1
                    (enqueueCheck v (curSize s v)
                      (fiRevVals c v (curDomain s v) s).2.1 q)).2.1 u ≠
                    curDomain (fiRevVals c v (curDomain s v) s).2.1 u := by
                  rw [hhead]
                  exact hu
                obtain ⟨h1, h2⟩ := ih _ _ hf u hrest
                exact ⟨List.mem_cons_of_mem _ h1, h2⟩
              · have huv : u = v := by
                  by_contra hne
                  exact hhead (fiRevVals_doms_other c v (curDomain s v) s u hne)
                subst huv
                refine ⟨List.mem_cons_self _ _, ?_⟩
                have hsz : curSize (fiRevVals c u (curDomain s u) s).2.1 u ≠
                    curSize s u := by
                  intro heq
                  exact hhead
                    ((fiRevVals_sublist c u (curDomain s u) s u).eq_of_length heq)
                exact fiRevScope_queue_mono c w vs _ _ u
                  (self_mem_enqueueCheck u (curSize s u) _ q hsz)

theorem fiRevScope_nonempty (c : Constraint) (w : Nat) (vs : List Nat)
    (s : State) (q : List Nat)
    (hf : (fiRevScope c w vs s q).2.2.2 = false) :
    ∀ u, curDomain s u ≠ [] → curDomain (fiRevScope c w vs s q).2.1 u ≠ [] := by
  induction vs generalizing s q with
  | nil => intro u hu; exact hu
  | cons v vs ih =>
      simp only [fiRevScope] at hf ⊢
      split at hf
      · next hvw =>
          rw [if_pos hvw]
          exact ih s q hf
      · next hvw =>
          rw [if_neg hvw]
          split at hf
          · exact absurd hf (by simp)
          · next hfail =>
              rw [if_neg hfail]
              dsimp only at hf ⊢
              intro u hu
              have hfail' : (fiRevVals c v (curDomain s v) s).2.2 = false := by
                cases h : (fiRevVals c v (curDomain s v) s).2.2 with
                | false => rfl
                | true => exact absurd h hfail
              exact ih _ _ hf u
                (fiRevVals_nonempty c v (curDomain s v) s hfail' u hu)

theorem fiRevScope_trace_mem (c : Constraint) (w : Nat) (vs : List Nat)
    (s : State) (q : List Nat) :
    ∀ p ∈ (fiRevScope c w vs s q).1, p.2 ∈ curDomain s p.1 := by
  induction vs generalizing s q with
  | nil => intro p hp; exact absurd hp (List.not_mem_nil p)
  | cons v vs ih =>
      simp only [fiRevScope]
      split
      · exact ih s q
      · split
        · intro p hp
          obtain ⟨h1, h2⟩ := fiRevVals_trace c v (curDomain s v) s p hp
          rw [h1]
          exact h2
        · dsimp only
          intro p hp
          rcases List.mem_append.mp hp with h | h
          · obtain ⟨h1, h2⟩ := fiRevVals_trace c v (curDomain s v) s p h
            rw [h1]
            exact h2
          · have := ih _ _ p h
            exact (fiRevVals_sublist c v (curDomain s v) s p.1).subset this

theorem fiRevScope_mem (c : Constraint) (w : Nat) (vs : List Nat)
    (s : State) (q : List Nat) :
    ∀ u e, e ∈ curDomain s u →
      e ∈ curDomain (fiRevScope c w vs s q).2.1 u ∨
        (u, e) ∈ (fiRevScope c w vs s q).1 := by
  induction vs generalizing s q with
  | nil => intro u e he; exact Or.inl he
  | cons v vs ih =>
      simp only [fiRevScope]
      split
      · exact ih s q
      · split
        · exact fiRevVals_mem c v (curDomain s v) s
        · dsimp only
          intro u e he
          rcases fiRevVals_mem c v (curDomain s v) s u e he with h | h
          · rcases ih _ _ u e h with h' | h'
            · exact Or.inl h'
            · exact Or.inr (List.mem_append_right _ h')
          · exact Or.inr (List.mem_append_left _ h)

theorem fiRevScope_unsupported (c : Constraint) (w : Nat) (vs : List Nat)
    (s : State) (q : List Nat) :
    ∀ p ∈ (fiRevScope c w vs s q).1,
      p.1 ∈ vs ∧ hasSupport c p.1 p.2 (fiRevScope c w vs s q).2.1 = false := by
  induction vs generalizing s q with
  | nil => intro p hp; exact absurd hp (List.not_mem_nil p)
  | cons v vs ih =>
      simp only [fiRevScope]
      split
      · intro p hp
        obtain ⟨h1, h2⟩ := ih s q p hp
        exact ⟨List.mem_cons_of_mem _ h1, h2⟩
      · split
        · intro p hp
          have h1 := (fiRevVals_trace c v (curDomain s v) s p hp).1
          have h2 := fiRevVals_unsupported c v (curDomain s v) s p hp
          rw [h1]
          exact ⟨List.mem_cons_self _ _, h2⟩
        · dsimp only
          intro p hp
          rcases List.mem_append.mp hp with h | h
          · have h1 := (fiRevVals_trace c v (curDomain s v) s p h).1
            have h2 := fiRevVals_unsupported c v (curDomain s v) s p h
            rw [h1]
            refine ⟨List.mem_cons_self _ _, ?_⟩
            exact hasSupport_antitone c v p.2 _ _
              (fun u => (fiRevScope_sublist c w vs _ _ u).subset) h2
          · obtain ⟨h1, h2⟩ := ih _ _ p h
            exact ⟨List.mem_cons_of_mem _ h1, h2⟩

/-! ## The worklist invariant -/

theorem Supported_frame (c : Constraint) (v : Nat) (s s' : State)
    (hdom : List.Sublist (curDomain s' v) (curDomain s v))
    (hfr : ∀ u ∈ c.scope, u ≠ v → curDomain s' u = curDomain s u)
    (h : Supported c v s) : Supported c v s' := by
  intro d hd
  rw [hasSupport_frame c v d s s' hfr]
  exact h d (hdom.subset hd)

theorem Good_step (c2 : Constraint) (v2 : Nat) (s s' : State) (q q' : List Nat)
    (hsub : ∀ u, List.Sublist (curDomain s' u) (curDomain s u))
    (hq : ∀ x ∈ q, x ∈ q')
    (hch : ∀ u, curDomain s' u ≠ curDomain s u → u ∈ q')
    (h : Good c2 v2 s q) : Good c2 v2 s' q' := by
  rcases h with h | ⟨u, hu1, hu2, hu3⟩
  · by_cases hall : ∀ u ∈ c2.scope, u ≠ v2 → curDomain s' u = curDomain s u
    · exact Or.inl (Supported_frame c2 v2 s s' (hsub v2) hall h)
    · push_neg at hall
      obtain ⟨u, hu1, hu2, hu3⟩ := hall
      exact Or.inr ⟨u, hu1, hu2, hch u hu3⟩
  · exact Or.inr ⟨u, hu1, hu2, hq u hu3⟩

theorem fiRevScope_preserve (c : Constraint) (w : Nat) (vs : List Nat)
    (s : State) (q : List Nat)
    (hf : (fiRevScope c w vs s q).2.2.2 = false)
    (c2 : Constraint) (v2 : Nat) (h : Good c2 v2 s q) :
    Good c2 v2 (fiRevScope c w vs s q).2.1 (fiRevScope c w vs s q).2.2.1 :=
  Good_step c2 v2 s _ q _ (fun u => fiRevScope_sublist c w vs s q u)
    (fiRevScope_queue_mono c w vs s q)
    (fun u hu => (fiRevScope_changed c w vs s q hf u hu).2) h

theorem fiRevScope_establish (c : Constraint) (w : Nat) (vs : List Nat)
    (s : State) (q : List Nat)
    (hf : (fiRevScope c w vs s q).2.2.2 = false) :
    ∀ v ∈ vs, v ≠ w →
      Supported c v (fiRevScope c w vs s q).2.1 ∨
        ∃ u, u ∈ vs ∧ u ≠ v ∧ u ∈ (fiRevScope c w vs s q).2.2.1 := by
  induction vs generalizing s q with
  | nil => intro v hv; exact absurd hv (List.not_mem_nil v)
  | cons v0 vs ih =>
      simp only [fiRevScope] at hf ⊢
      split at hf
      · next hvw =>
          rw [if_pos hvw]
          intro v hv hvne
          have hv' : v ∈ vs := by
            rcases List.mem_cons.mp hv with h | h
            · exact absurd (h.trans hvw) hvne
            · exact h
          rcases ih s q hf v hv' hvne with h | ⟨u, hu1, hu2, hu3⟩
          · exact Or.inl h
          · exact Or.inr ⟨u, List.mem_cons_of_mem _ hu1, hu2, hu3⟩
      · next hvw =>
          rw [if_neg hvw]
          split at hf
          · exact absurd hf (by simp)
          · next hfail =>
              rw [if_neg hfail]
              dsimp only at hf ⊢
              intro v hv hvne
              rcases List.mem_cons.mp hv with hveq | hvmem
              · subst hveq
                have hfail' : (fiRevVals c v (curDomain s v) s).2.2 = false := by
                  cases hb : (fiRevVals c v (curDomain s v) s).2.2 with
                  | false => rfl
                  | true => exact absurd hb hfail
                have hpost : Supported c v (fiRevVals c v (curDomain s v) s).2.1 := by
                  intro d hd
                  exact fiRevVals_complete c v (curDomain s v) s
                    (fun e _ => Nat.le_refl _) hfail' d hd
                by_cases hall : ∀ u ∈ c.scope, u ≠ v →
                    curDomain (fiRevScope c w vs (fiRevVals c v (curDomain s v) s).2.1
                      (enqueueCheck v (curSize s v)
                        (fiRevVals c v (curDomain s v) s).2.1 q)).2.1 u =
                    curDomain (fiRevVals c v (curDomain s v) s).2.1 u
                · left
                  exact Supported_frame c v _ _
                    (fiRevScope_sublist c w vs _ _ v) hall hpost
                · push_neg at hall
                  obtain ⟨u, hu1, hu2, hu3⟩ := hall
                  right
                  obtain ⟨hu4, hu5⟩ := fiRevScope_changed c w vs _ _ hf u hu3
                  exact ⟨u, List.mem_cons_of_mem _ hu4, hu2, hu5⟩
              · rcases ih _ _ hf v hvmem hvne with h | ⟨u, hu1, hu2, hu3⟩
                · exact Or.inl h
                · exact Or.inr ⟨u, List.mem_cons_of_mem _ hu1, hu2, hu3⟩

/-! ## Properties of the constraint loop of one `prop_FI` dequeue -/

theorem fiCons_assigns (w : Nat) (cs : List Constraint) (s : State) (q : List Nat) :
    (fiCons w cs s q).2.1.assigns = s.assigns := by
  induction cs generalizing s q with
  | nil => rfl
  | cons c cs ih =>
      simp only [fiCons]
      split
      · exact fiRevScope_assigns c w c.scope s q
      · dsimp only
        rw [ih _ _, fiRevScope_assigns]

theorem fiCons_sublist (w : Nat) (cs : List Constraint) (s : State) (q : List Nat)
    (u : Nat) :
    List.Sublist (curDomain (fiCons w cs s q).2.1 u) (curDomain s u) := by
  induction cs generalizing s q with
  | nil => exact List.Sublist.refl _
  | cons c cs ih =>
      simp only [fiCons]
      split
      · exact fiRevScope_sublist c w c.scope s q u
      · dsimp only
        exact (ih _ _).trans (fiRevScope_sublist c w c.scope s q u)

theorem fiCons_queue_mono (w : Nat) (cs : List Constraint) (s : State) (q : List Nat) :
    ∀ x ∈ q, x ∈ (fiCons w cs s q).2.2.1 := by
  induction cs generalizing s q with
  | nil => intro x hx; exact hx
  | cons c cs ih =>
      simp only [fiCons]
      split
      · exact fiRevScope_queue_mono c w c.scope s q
      · dsimp only
        intro x hx
        exact ih _ _ x (fiRevScope_queue_mono c w c.scope s q x hx)

theorem fiCons_measure (w : Nat) (cs : List Constraint) (s : State) (q : List Nat) :
    totalDom (fiCons w cs s q).2.1 + (fiCons w cs s q).2.2.1.length ≤
      totalDom s + q.length := by
  induction cs generalizing s q with
  | nil => exact Nat.le_refl _
  | cons c cs ih =>
      simp only [fiCons]
      split
      · exact fiRevScope_measure c w c.scope s q
      · dsimp only
        have h1 := fiRevScope_measure c w c.scope s q
        have h2 := ih (fiRevScope c w c.scope s q).2.1 (fiRevScope c w c.scope s q).2.2.1
        omega

theorem fiCons_changed (w : Nat) (cs : List Constraint) (s : State) (q : List Nat)
    (hf : (fiCons w cs s q).2.2.2 = false) :
    ∀ u, curDomain (fiCons w cs s q).2.1 u ≠ curDomain s u →
      u ∈ (fiCons w cs s q).2.2.1 := by
  induction cs generalizing s q with
  | nil => intro u hu; exact absurd rfl hu
  | cons c cs ih =>
      simp only [fiCons] at hf ⊢
      split at hf
      · exact absurd hf (by simp)
      · next hfail =>
          rw [if_neg hfail]
          dsimp only at hf ⊢
          intro u hu
          have hfail' : (fiRevScope c w c.scope s q).2.2.2 = false := by
            cases hb : (fiRevScope c w c.scope s q).2.2.2 with
            | false => rfl
            | true => exact absurd hb hfail
          by_cases hhead : curDomain (fiRevScope c w c.scope s q).2.1 u = curDomain s u
          · refine ih _ _ hf u ?_
            rw [hhead]
            exact hu
          · have := (fiRevScope_changed c w c.scope s q hfail' u hhead).2
            exact fiCons_queue_mono w cs _ _ u this

theorem fiCons_nonempty (w : Nat) (cs : List Constraint) (s : State) (q : List Nat)
    (hf : (fiCons w cs s q).2.2.2 = false) :
    ∀ u, curDomain s u ≠ [] → curDomain (fiCons w cs s q).2.1 u ≠ [] := by
  induction cs generalizing s q with
  | nil => intro u hu; exact hu
  | cons c cs ih =>
      simp only [fiCons] at hf ⊢
      split at hf
      · exact absurd hf (by simp)
      · next hfail =>
          rw [if_neg hfail]
          dsimp only at hf ⊢
          intro u hu
          have hfail' : (fiRevScope c w c.scope s q).2.2.2 = false := by
            cases hb : (fiRevScope c w c.scope s q).2.2.2 with
            | false => rfl
            | true => exact absurd hb hfail
          exact ih _ _ hf u (fiRevScope_nonempty c w c.scope s q hfail' u hu)

theorem fiCons_trace_mem (w : Nat) (cs : List Constraint) (s : State) (q : List Nat) :
    ∀ p ∈ (fiCons w cs s q).1, p.2 ∈ curDomain s p.1 := by
  induction cs generalizing s q with
  | nil => intro p hp; exact absurd hp (List.not_mem_nil p)
  | cons c cs ih =>
      simp only [fiCons]
      split
      · exact fiRevScope_trace_mem c w c.scope s q
      · dsimp only
        intro p hp
        rcases List.mem_append.mp hp with h | h
        · exact fiRevScope_trace_mem c w c.scope s q p h
        · exact (fiRevScope_sublist c w c.scope s q p.1).subset (ih _ _ p h)

theorem fiCons_mem (w : Nat) (cs : List Constraint) (s : State) (q : List Nat) :
    ∀ u e, e ∈ curDomain s u →
      e ∈ curDomain (fiCons w cs s q).2.1 u ∨ (u, e) ∈ (fiCons w cs s q).1 := by
  induction cs generalizing s q with
  | nil => intro u e he; exact Or.inl he
  | cons c cs ih =>
      simp only [fiCons]
      split
      · exact fiRevScope_mem c w c.scope s q
      · dsimp only
        intro u e he
        rcases fiRevScope_mem c w c.scope s q u e he with h | h
        · rcases ih _ _ u e h with h' | h'
          · exact Or.inl h'
          · exact Or.inr (List.mem_append_right _ h')
        · exact Or.inr (List.mem_append_left _ h)

theorem fiCons_unsupported (w : Nat) (cs : List Constraint) (s : State) (q : List Nat) :
    ∀ p ∈ (fiCons w cs s q).1, ∃ c' ∈ cs, p.1 ∈ c'.scope ∧
      hasSupport c' p.1 p.2 (fiCons w cs s q).2.1 = false := by
  induction cs generalizing s q with
  | nil => intro p hp; exact absurd hp (List.not_mem_nil p)
  | cons c cs ih =>
      simp only [fiCons]
      split
      · intro p hp
        obtain ⟨h1, h2⟩ := fiRevScope_unsupported c w c.scope s q p hp
        exact ⟨c, List.mem_cons_self _ _, h1, h2⟩
      · dsimp only
        intro p hp
        rcases List.mem_append.mp hp with h | h
        · obtain ⟨h1, h2⟩ := fiRevScope_unsupported c w c.scope s q p h
          refine ⟨c, List.mem_cons_self _ _, h1, ?_⟩
          exact hasSupport_antitone c p.1 p.2 _ _
            (fun u => (fiCons_sublist w cs _ _ u).subset) h2
        · obtain ⟨c', hc1, hc2, hc3⟩ := ih _ _ p h
          exact ⟨c', List.mem_cons_of_mem _ hc1, hc2, hc3⟩

theorem fiCons_preserve (w : Nat) (cs : List Constraint) (s : State) (q : List Nat)
    (hf : (fiCons w cs s q).2.2.2 = false)
    (c2 : Constraint) (v2 : Nat) (h : Good c2 v2 s q) :
    Good c2 v2 (fiCons w cs s q).2.1 (fiCons w cs s q).2.2.1 :=
  Good_step c2 v2 s _ q _ (fun u => fiCons_sublist w cs s q u)
    (fiCons_queue_mono w cs s q)
    (fun u hu => fiCons_changed w cs s q hf u hu) h

theorem fiCons_establish (w : Nat) (cs : List Constraint) (s : State) (q : List Nat)
    (hf : (fiCons w cs s q).2.2.2 = false) :
    ∀ c ∈ cs, ∀ v ∈ c.scope, v ≠ w →
      Good c v (fiCons w cs s q).2.1 (fiCons w cs s q).2.2.1 := by
  induction cs generalizing s q with
  | nil => intro c hc; exact absurd hc (List.not_mem_nil c)
  | cons c0 cs ih =>
      simp only [fiCons] at hf ⊢
      split at hf
      · exact absurd hf (by simp)
      · next hfail =>
          rw [if_neg hfail]
          dsimp only at hf ⊢
          have hfail' : (fiRevScope c0 w c0.scope s q).2.2.2 = false := by
            cases hb : (fiRevScope c0 w c0.scope s q).2.2.2 with
            | false => rfl
            | true => exact absurd hb hfail
          intro c hc v hv hvw
          rcases List.mem_cons.mp hc with hceq | hcmem
          · subst hceq
            have hmid : Good c v (fiRevScope c w c.scope s q).2.1
                (fiRevScope c w c.scope s q).2.2.1 := by
              rcases fiRevScope_establish c w c.scope s q hfail' v hv hvw with
                h | ⟨u, hu1, hu2, hu3⟩
              · exact Or.inl h
              · exact Or.inr ⟨u, hu1, hu2, hu3⟩
            exact fiCons_preserve w cs _ _ hf c v hmid
          · exact ih _ _ hf c hcmem v hv hvw

/-! ## Properties of the worklist loop of `prop_FI` -/

theorem fiLoopF_assigns (csp : CSP) (fuel : Nat) (q : List Nat) (s : State)
    (r : Bool × List (Nat × Nat) × State) (h : fiLoopF csp fuel q s = some r) :
    r.2.2.assigns = s.assigns := by
  induction fuel generalizing q s r with
  | zero => exact absurd h (by simp [fiLoopF])
  | succ fuel ih =>
      cases q with
      | nil =>
          simp only [fiLoopF] at h
          injection h with h
          subst h
          rfl
      | cons w rest =>
          simp only [fiLoopF] at h
          split at h
          · injection h with h
            subst h
            exact fiCons_assigns w _ s rest
          · cases hrec : fiLoopF csp fuel (fiCons w (getConsWithVar csp w) s rest).2.2.1
                (fiCons w (getConsWithVar csp w) s rest).2.1 with
            | none =>
                rw [hrec] at h
                exact absurd h (by simp)
            | some r' =>
                rw [hrec] at h
                dsimp only at h
                injection h with h
                subst h
                dsimp only
                rw [ih _ _ _ hrec, fiCons_assigns]

theorem fiLoopF_sublist (csp : CSP) (fuel : Nat) (q : List Nat) (s : State)
    (r : Bool × List (Nat × Nat) × State) (h : fiLoopF csp fuel q s = some r)
    (u : Nat) : List.Sublist (curDomain r.2.2 u) (curDomain s u) := by
  induction fuel generalizing q s r with
  | zero => exact absurd h (by simp [fiLoopF])
  | succ fuel ih =>
      cases q with
      | nil =>
          simp only [fiLoopF] at h
          injection h with h
          subst h
          exact List.Sublist.refl _
      | cons w rest =>
          simp only [fiLoopF] at h
          split at h
          · injection h with h
            subst h
            exact fiCons_sublist w _ s rest u
          · cases hrec : fiLoopF csp fuel (fiCons w (getConsWithVar csp w) s rest).2.2.1
                (fiCons w (getConsWithVar csp w) s rest).2.1 with
            | none =>
                rw [hrec] at h
                exact absurd h (by simp)
            | some r' =>
                rw [hrec] at h
                dsimp only at h
                injection h with h
                subst h
                dsimp only
                exact (ih _ _ _ hrec).trans (fiCons_sublist w _ s rest u)

theorem fiLoopF_trace_mem (csp : CSP) (fuel : Nat) (q : List Nat) (s : State)
    (r : Bool × List (Nat × Nat) × State) (h : fiLoopF csp fuel q s = some r) :
    ∀ p ∈ r.2.1, p.2 ∈ curDomain s p.1 := by
  induction fuel generalizing q s r with
  | zero => exact absurd h (by simp [fiLoopF])
  | succ fuel ih =>
      cases q with
      | nil =>
          simp only [fiLoopF] at h
          injection h with h
          subst h
          intro p hp
          exact absurd hp (List.not_mem_nil p)
      | cons w rest =>
          simp only [fiLoopF] at h
          split at h
          · injection h with h
            subst h
            exact fiCons_trace_mem w _ s rest
          · cases hrec : fiLoopF csp fuel (fiCons w (getConsWithVar csp w) s rest).2.2.1
                (fiCons w (getConsWithVar csp w) s rest).2.1 with
            | none =>
                rw [hrec] at h
                exact absurd h (by simp)
            | some r' =>
                rw [hrec] at h
                dsimp only at h
                injection h with h
                subst h
                dsimp only
                intro p hp
                rcases List.mem_append.mp hp with hp | hp
                · exact fiCons_trace_mem w _ s rest p hp
                · exact (fiCons_sublist w _ s rest p.1).subset (ih _ _ _ hrec p hp)

theorem fiLoopF_mem (csp : CSP) (fuel : Nat) (q : List Nat) (s : State)
    (r : Bool × List (Nat × Nat) × State) (h : fiLoopF csp fuel q s = some r) :
    ∀ u e, e ∈ curDomain s u → e ∈ curDomain r.2.2 u ∨ (u, e) ∈ r.2.1 := by
  induction fuel generalizing q s r with
  | zero => exact absurd h (by simp [fiLoopF])
  | succ fuel ih =>
      cases q with
      | nil =>
          simp only [fiLoopF] at h
          injection h with h
          subst h
          intro u e he
          exact Or.inl he
      | cons w rest =>
          simp only [fiLoopF] at h
          split at h
          · injection h with h
            subst h
            exact fiCons_mem w _ s rest
          · cases hrec : fiLoopF csp fuel (fiCons w (getConsWithVar csp w) s rest).2.2.1
                (fiCons w (getConsWithVar csp w) s rest).2.1 with
            | none =>
                rw [hrec] at h
                exact absurd h (by simp)
            | some r' =>
                rw [hrec] at h
                dsimp only at h
                injection h with h
                subst h
                dsimp only
                intro u e he
                rcases fiCons_mem w _ s rest u e he with h' | h'
                · rcases ih _ _ _ hrec u e h' with h'' | h''
                  · exact Or.inl h''
                  · exact Or.inr (List.mem_append_right _ h'')
                · exact Or.inr (List.mem_append_left _ h')

theorem fiLoopF_unsupported (csp : CSP) (fuel : Nat) (q : List Nat) (s : State)
    (r : Bool × List (Nat × Nat) × State) (h : fiLoopF csp fuel q s = some r) :
    ∀ p ∈ r.2.1, ∃ c' ∈ csp.cons, p.1 ∈ c'.scope ∧
      hasSupport c' p.1 p.2 r.2.2 = false := by
  induction fuel generalizing q s r with
  | zero => exact absurd h (by simp [fiLoopF])
  | succ fuel ih =>
      cases q with
      | nil =>
          simp only [fiLoopF] at h
          injection h with h
          subst h
          intro p hp
          exact absurd hp (List.not_mem_nil p)
      | cons w rest =>
          simp only [fiLoopF] at h
          split at h
          · injection h with h
            subst h
            intro p hp
            obtain ⟨c', hc1, hc2, hc3⟩ := fiCons_unsupported w _ s rest p hp
            exact ⟨c', (List.mem_filter.mp hc1).1, hc2, hc3⟩
          · cases hrec : fiLoopF csp fuel (fiCons w (getConsWithVar csp w) s rest).2.2.1
                (fiCons w (getConsWithVar csp w) s rest).2.1 with
            | none =>
                rw [hrec] at h
                exact absurd h (by simp)
            | some r' =>
                rw [hrec] at h
                dsimp only at h
                injection h with h
                subst h
                dsimp only
                intro p hp
                rcases List.mem_append.mp hp with hp | hp
                · obtain ⟨c', hc1, hc2, hc3⟩ := fiCons_unsupported w _ s rest p hp
                  refine ⟨c', (List.mem_filter.mp hc1).1, hc2, ?_⟩
                  exact hasSupport_antitone c' p.1 p.2 _ _
                    (fun u => (fiLoopF_sublist csp fuel _ _ r' hrec u).subset) hc3
                · exact ih _ _ _ hrec p hp

theorem fiLoopF_total (csp : CSP) (fuel : Nat) (q : List Nat) (s : State)
    (h : totalDom s + q.length < fuel) : ∃ r, fiLoopF csp fuel q s = some r := by
  induction fuel generalizing q s with
  | zero => omega
  | succ fuel ih =>
      cases q with
      | nil => exact ⟨(true, [], s), rfl⟩
      | cons w rest =>
          simp only [fiLoopF]
          split
          · exact ⟨_, rfl⟩
          · have hm := fiCons_measure w (getConsWithVar csp w) s rest
            have hlt : totalDom (fiCons w (getConsWithVar csp w) s rest).2.1 +
                (fiCons w (getConsWithVar csp w) s rest).2.2.1.length < fuel := by
              simp only [List.length_cons] at h
              omega
            obtain ⟨r, hr⟩ := ih _ _ hlt
            rw [hr]
            exact ⟨_, rfl⟩

theorem fiLoopF_main (csp : CSP) (fuel : Nat) (q : List Nat) (s : State)
    (r : Bool × List (Nat × Nat) × State) (h : fiLoopF csp fuel q s = some r)
    (hb : r.1 = true) :
    ∀ c2 ∈ csp.cons, ∀ v2 ∈ c2.scope, Good c2 v2 s q → Supported c2 v2 r.2.2 := by
  induction fuel generalizing q s r with
  | zero => exact absurd h (by simp [fiLoopF])
  | succ fuel ih =>
      cases q with
      | nil =>
          simp only [fiLoopF] at h
          injection h with h
          subst h
          intro c2 _ v2 _ hg
          rcases hg with hg | ⟨u, _, _, hu3⟩
          · exact hg
          · exact absurd hu3 (List.not_mem_nil u)
      | cons w rest =>
          simp only [fiLoopF] at h
          split at h
          · injection h with h
            subst h
            exact absurd hb (by simp)
          · next hfail =>
              have hfail' : (fiCons w (getConsWithVar csp w) s rest).2.2.2 = false := by
                cases hbb : (fiCons w (getConsWithVar csp w) s rest).2.2.2 with
                | false => rfl
                | true => exact absurd hbb hfail
              cases hrec : fiLoopF csp fuel (fiCons w (getConsWithVar csp w) s rest).2.2.1
                  (fiCons w (getConsWithVar csp w) s rest).2.1 with
              | none =>
                  rw [hrec] at h
                  exact absurd h (by simp)
              | some r' =>
                  rw [hrec] at h
                  dsimp only at h
                  injection h with h
                  subst h
                  dsimp only at hb ⊢
                  intro c2 hc2 v2 hv2 hg
                  refine ih _ _ _ hrec hb c2 hc2 v2 hv2 ?_
                  rcases hg with hg | ⟨u, hu1, hu2, hu3⟩
                  · exact fiCons_preserve w _ s rest hfail' c2 v2 (Or.inl hg)
                  · rcases List.mem_cons.mp hu3 with huw | hur
                    · rw [huw] at hu1 hu2
                      have hc2' : c2 ∈ getConsWithVar csp w := by
                        unfold getConsWithVar
                        rw [List.mem_filter]
                        exact ⟨hc2, by simpa using hu1⟩
                      exact fiCons_establish w _ s rest hfail' c2 hc2' v2 hv2
                        (Ne.symm hu2)
                    · exact fiCons_preserve w _ s rest hfail' c2 v2
                        (Or.inr ⟨u, hu1, hu2, hur⟩)

theorem fiLoopF_nonempty (csp : CSP) (fuel : Nat) (q : List Nat) (s : State)
    (r : Bool × List (Nat × Nat) × State) (h : fiLoopF csp fuel q s = some r)
    (hb : r.1 = true) :
    ∀ u, curDomain s u ≠ [] → curDomain r.2.2 u ≠ [] := by
  induction fuel generalizing q s r with
  | zero => exact absurd h (by simp [fiLoopF])
  | succ fuel ih =>
      cases q with
      | nil =>
          simp only [fiLoopF] at h
          injection h with h
          subst h
          intro u hu
          exact hu
      | cons w rest =>
          simp only [fiLoopF] at h
          split at h
          · injection h with h
            subst h
            exact absurd hb (by simp)
          · next hfail =>
              have hfail' : (fiCons w (getConsWithVar csp w) s rest).2.2.2 = false := by
                cases hbb : (fiCons w (getConsWithVar csp w) s rest).2.2.2 with
                | false => rfl
                | true => exact absurd hbb hfail
              cases hrec : fiLoopF csp fuel (fiCons w (getConsWithVar csp w) s rest).2.2.1
                  (fiCons w (getConsWithVar csp w) s rest).2.1 with
              | none =>
                  rw [hrec] at h
                  exact absurd h (by simp)
              | some r' =>
                  rw [hrec] at h
                  dsimp only at h
                  injection h with h
                  subst h
                  dsimp only at hb ⊢
                  intro u hu
                  exact ih _ _ _ hrec hb u (fiCons_nonempty w _ s rest hfail' u hu)

/-! ## A fixpoint state is left untouched (no-op runs) -/

theorem fiRevVals_noop (c : Constraint) (v : Nat) (ds : List Nat) (s : State)
    (h : ∀ d ∈ ds, hasSupport c v d s = true) :
    fiRevVals c v ds s = ([], s, false) := by
  induction ds with
  | nil => rfl
  | cons d ds ih =>
      simp only [fiRevVals]
      rw [if_pos (h d (List.mem_cons_self _ _))]
      exact ih (fun e he => h e (List.mem_cons_of_mem _ he))

theorem fiRevScope_noop (c : Constraint) (w : Nat) (vs : List Nat) (s : State)
    (q : List Nat) (h : ∀ v ∈ vs, v ≠ w → Supported c v s) :
    fiRevScope c w vs s q = ([], s, q, false) := by
  induction vs generalizing q with
  | nil => rfl
  | cons v vs ih =>
      simp only [fiRevScope]
      by_cases hvw : v = w
      · rw [if_pos hvw]
        exact ih q (fun v' hv' => h v' (List.mem_cons_of_mem _ hv'))
      · rw [if_neg hvw]
        rw [fiRevVals_noop c v (curDomain s v) s (h v (List.mem_cons_self _ _) hvw)]
        dsimp only
        split
        · next hcon => exact absurd hcon (by simp)
        · have henq : enqueueCheck v (curSize s v) s q = q := by
            unfold enqueueCheck
            rw [if_neg]
            intro hcon
            exact hcon.1 rfl
          rw [henq, ih q (fun v' hv' => h v' (List.mem_cons_of_mem _ hv'))]
          rfl

theorem fiCons_noop (w : Nat) (cs : List Constraint) (s : State) (q : List Nat)
    (h : ∀ c ∈ cs, ∀ v ∈ c.scope, v ≠ w → Supported c v s) :
    fiCons w cs s q = ([], s, q, false) := by
  induction cs generalizing q with
  | nil => rfl
  | cons c cs ih =>
      simp only [fiCons]
      rw [fiRevScope_noop c w c.scope s q (h c (List.mem_cons_self _ _))]
      dsimp only
      split
      · next hcon => exact absurd hcon (by simp)
      · rw [ih q (fun c' hc' => h c' (List.mem_cons_of_mem _ hc'))]
        rfl

theorem fiLoopF_noop (csp : CSP) (fuel : Nat) (q : List Nat) (s : State)
    (hfuel : q.length < fuel)
    (h : ∀ w ∈ q, ∀ c ∈ getConsWithVar csp w, ∀ v ∈ c.scope, v ≠ w →
      Supported c v s) :
    fiLoopF csp fuel q s = some (true, [], s) := by
  induction fuel generalizing q with
  | zero => omega
  | succ fuel ih =>
      cases q with
      | nil => rfl
      | cons w rest =>
          simp only [fiLoopF]
          rw [fiCons_noop w (getConsWithVar csp w) s rest
            (h w (List.mem_cons_self _ _))]
          dsimp only
          split
          · next hcon => exact absurd hcon (by simp)
          · have hlen : rest.length < fuel := by
              simp only [List.length_cons] at hfuel
              omega
            rw [ih rest hlen (fun w' hw' => h w' (List.mem_cons_of_mem _ hw'))]
            rfl

/-! ## No duplicate pruning in `prop_FI` (domains without duplicates) -/

theorem fiRevScope_c8 (c : Constraint) (w : Nat) (vs : List Nat) (s : State)
    (q : List Nat) (hnd : ∀ u, (curDomain s u).Nodup) :
    (∀ u, (curDomain (fiRevScope c w vs s q).2.1 u).Nodup) ∧
    (fiRevScope c w vs s q).1.Nodup ∧
    (∀ p ∈ (fiRevScope c w vs s q).1,
      p.2 ∉ curDomain (fiRevScope c w vs s q).2.1 p.1) ∧
    (∀ u, curSize (fiRevScope c w vs s q).2.1 u +
      ((fiRevScope c w vs s q).1.filter (fun p => decide (p.1 = u))).length =
        curSize s u) := by
  induction vs generalizing s q with
  | nil =>
      refine ⟨hnd, List.nodup_nil, ?_, fun u => rfl⟩
      intro p hp
      exact absurd hp (List.not_mem_nil p)
  | cons v vs ih =>
      simp only [fiRevScope]
      split
      · exact ih s q hnd
      · obtain ⟨h1, h2, h3, h4⟩ := fiRevVals_c8 c v (curDomain s v) s (hnd v)
          (hnd v) (fun e he => he)
        have hndmid : ∀ u, (curDomain (fiRevVals c v (curDomain s v) s).2.1 u).Nodup := by
          intro u
          by_cases huv : u = v
          · subst huv
            exact h4
          · rw [fiRevVals_doms_other c v (curDomain s v) s u huv]
            exact hnd u
        have htrNodup : (fiRevVals c v (curDomain s v) s).1.Nodup :=
          List.Nodup.of_map Prod.snd (List.Nodup.sublist h1 (hnd v))
        have hallv : ∀ p ∈ (fiRevVals c v (curDomain s v) s).1,
            decide (p.1 = v) = true := by
          intro p hp
          simp [(fiRevVals_trace c v (curDomain s v) s p hp).1]
        have hfilv : ((fiRevVals c v (curDomain s v) s).1.filter
            (fun p => decide (p.1 = v))).length =
            (fiRevVals c v (curDomain s v) s).1.length := by
          rw [List.filter_eq_self.mpr hallv]
        have hfilne : ∀ u, u ≠ v → ((fiRevVals c v (curDomain s v) s).1.filter
            (fun p => decide (p.1 = u))) = [] := by
          intro u huv
          rw [List.filter_eq_nil_iff]
          intro p hp
          have := (fiRevVals_trace c v (curDomain s v) s p hp).1
          simp [this]
          intro hcon
          exact huv hcon.symm
        split
        · dsimp only
          refine ⟨hndmid, htrNodup, ?_, ?_⟩
          · intro p hp
            rw [(fiRevVals_trace c v (curDomain s v) s p hp).1]
            exact h2 p hp
          · intro u
            by_cases huv : u = v
            · subst huv
              rw [hfilv]
              exact h3
            · rw [hfilne u huv]
              simp only [List.length_nil, Nat.add_zero]
              simp [curSize, fiRevVals_doms_other c v (curDomain s v) s u huv]
        · obtain ⟨g1, g2, g3, g4⟩ := ih (fiRevVals c v (curDomain s v) s).2.1
            (enqueueCheck v (curSize s v) (fiRevVals c v (curDomain s v) s).2.1 q)
            hndmid
          dsimp only
          refine ⟨g1, ?_, ?_, ?_⟩
          · refine List.Nodup.append htrNodup g2 ?_
            intro p hp1 hp2
            have hpv := (fiRevVals_trace c v (curDomain s v) s p hp1).1
            have hin := fiRevScope_trace_mem c w vs _ _ p hp2
            rw [hpv] at hin
            exact (h2 p hp1) hin
          · intro p hp
            rcases List.mem_append.mp hp with hp | hp
            · have hpv := (fiRevVals_trace c v (curDomain s v) s p hp).1
              rw [hpv]
              intro hmem
              exact (h2 p hp) ((fiRevScope_sublist c w vs _ _ v).subset hmem)
            · exact g3 p hp
          · intro u
            rw [List.filter_append, List.length_append]
            by_cases huv : u = v
            · subst huv
              rw [hfilv]
              have hg := g4 u
              omega
            · rw [hfilne u huv]
              have hmid : curSize (fiRevVals c v (curDomain s v) s).2.1 u =
                  curSize s u := by
                simp [curSize, fiRevVals_doms_other c v (curDomain s v) s u huv]
              have hg := g4 u
              simp only [List.length_nil]
              omega

theorem fiCons_c8 (w : Nat) (cs : List Constraint) (s : State) (q : List Nat)
    (hnd : ∀ u, (curDomain s u).Nodup) :
    (∀ u, (curDomain (fiCons w cs s q).2.1 u).Nodup) ∧
    (fiCons w cs s q).1.Nodup ∧
    (∀ p ∈ (fiCons w cs s q).1, p.2 ∉ curDomain (fiCons w cs s q).2.1 p.1) ∧
    (∀ u, curSize (fiCons w cs s q).2.1 u +
      ((fiCons w cs s q).1.filter (fun p => decide (p.1 = u))).length =
        curSize s u) := by
  induction cs generalizing s q with
  | nil =>
      refine ⟨hnd, List.nodup_nil, ?_, fun u => rfl⟩
      intro p hp
      exact absurd hp (List.not_mem_nil p)
  | cons c cs ih =>
      obtain ⟨h1, h2, h3, h4⟩ := fiRevScope_c8 c w c.scope s q hnd
      simp only [fiCons]
      split
      · exact ⟨h1, h2, h3, h4⟩
      · obtain ⟨g1, g2, g3, g4⟩ := ih (fiRevScope c w c.scope s q).2.1
          (fiRevScope c w c.scope s q).2.2.1 h1
        dsimp only
        refine ⟨g1, ?_, ?_, ?_⟩
        · refine List.Nodup.append h2 g2 ?_
          intro p hp1 hp2
          exact (h3 p hp1) (fiCons_trace_mem w cs _ _ p hp2)
        · intro p hp
          rcases List.mem_append.mp hp with hp | hp
          · intro hmem
            exact (h3 p hp) ((fiCons_sublist w cs _ _ p.1).subset hmem)
          · exact g3 p hp
        · intro u
          rw [List.filter_append, List.length_append]
          have ha := h4 u
          have hb := g4 u
          omega

theorem fiLoopF_c8 (csp : CSP) (fuel : Nat) (q : List Nat) (s : State)
    (r : Bool × List (Nat × Nat) × State) (h : fiLoopF csp fuel q s = some r)
    (hnd : ∀ u, (curDomain s u).Nodup) :
    (∀ u, (curDomain r.2.2 u).Nodup) ∧ r.2.1.Nodup ∧
    (∀ p ∈ r.2.1, p.2 ∉ curDomain r.2.2 p.1) ∧
    (∀ u, curSize r.2.2 u +
      (r.2.1.filter (fun p => decide (p.1 = u))).length = curSize s u) := by
  induction fuel generalizing q s r with
  | zero => exact absurd h (by simp [fiLoopF])
  | succ fuel ih =>
      cases q with
      | nil =>
          simp only [fiLoopF] at h
          injection h with h
          subst h
          refine ⟨hnd, List.nodup_nil, ?_, fun u => rfl⟩
          intro p hp
          exact absurd hp (List.not_mem_nil p)
      | cons w rest =>
          simp only [fiLoopF] at h
          obtain ⟨h1, h2, h3, h4⟩ := fiCons_c8 w (getConsWithVar csp w) s rest hnd
          split at h
          · injection h with h
            subst h
            exact ⟨h1, h2, h3, h4⟩
          · cases hrec : fiLoopF csp fuel (fiCons w (getConsWithVar csp w) s rest).2.2.1
                (fiCons w (getConsWithVar csp w) s rest).2.1 with
            | none =>
                rw [hrec] at h
                exact absurd h (by simp)
            | some r' =>
                rw [hrec] at h
                dsimp only at h
                injection h with h
                subst h
                obtain ⟨g1, g2, g3, g4⟩ := ih _ _ _ hrec h1
                dsimp only
                refine ⟨g1, ?_, ?_, ?_⟩
                · refine List.Nodup.append h2 g2 ?_
                  intro p hp1 hp2
                  exact (h3 p hp1) (fiLoopF_trace_mem csp fuel _ _ r' hrec p hp2)
                · intro p hp
                  rcases List.mem_append.mp hp with hp | hp
                  · intro hmem
                    exact (h3 p hp)
                      ((fiLoopF_sublist csp fuel _ _ r' hrec p.1).subset hmem)
                  · exact g3 p hp
                · intro u
                  rw [List.filter_append, List.length_append]
                  have ha := h4 u
                  have hb := g4 u
                  omega

/-! ## Properties of forward checking -/

theorem assignedValue_congr (s s' : State) (h : s'.assigns = s.assigns) (w : Nat) :
    assignedValue s' w = assignedValue s w := by
  unfold assignedValue
  rw [h]

theorem getUnasgnVars_congr (s s' : State) (h : s'.assigns = s.assigns)
    (c : Constraint) : getUnasgnVars s' c = getUnasgnVars s c := by
  unfold getUnasgnVars
  apply List.filter_congr
  intro v _
  rw [assignedValue_congr s s' h]

theorem getNUnasgn_congr (s s' : State) (h : s'.assigns = s.assigns)
    (c : Constraint) : getNUnasgn s' c = getNUnasgn s c := by
  unfold getNUnasgn
  rw [getUnasgnVars_congr s s' h]

theorem fcTuple_congr (c : Constraint) (u d : Nat) (s s' : State)
    (h : s'.assigns = s.assigns) :
    c.scope.map (fun w => if w = u then some d else assignedValue s' w) =
      c.scope.map (fun w => if w = u then some d else assignedValue s w) := by
  apply List.map_congr_left
  intro w _
  by_cases hw : w = u
  · simp [hw]
  · simp [hw, assignedValue_congr s s' h]

theorem fcRevise_assigns (c : Constraint) (u : Nat) (ds : List Nat) (s : State) :
    (fcRevise c u ds s).2.assigns = s.assigns := by
  induction ds generalizing s with
  | nil => rfl
  | cons d ds ih =>
      simp only [fcRevise]
      split
      · exact ih s
      · dsimp only
        rw [ih (pruneValue s u d)]
        rfl

theorem fcRevise_doms_other (c : Constraint) (u : Nat) (ds : List Nat) (s : State)
    (x : Nat) (h : x ≠ u) :
    curDomain (fcRevise c u ds s).2 x = curDomain s x := by
  induction ds generalizing s with
  | nil => rfl
  | cons d ds ih =>
      simp only [fcRevise]
      split
      · exact ih s
      · dsimp only
        rw [ih (pruneValue s u d), curDomain_prune_other s u d x h]

theorem fcRevise_sublist (c : Constraint) (u : Nat) (ds : List Nat) (s : State)
    (x : Nat) :
    List.Sublist (curDomain (fcRevise c u ds s).2 x) (curDomain s x) := by
  induction ds generalizing s with
  | nil => exact List.Sublist.refl _
  | cons d ds ih =>
      simp only [fcRevise]
      split
      · exact ih s
      · dsimp only
        exact (ih (pruneValue s u d)).trans (curDomain_prune_sublist s u d x)

theorem fcRevise_trace (c : Constraint) (u : Nat) (ds : List Nat) (s : State) :
    ∀ p ∈ (fcRevise c u ds s).1, p.1 = u ∧ p.2 ∈ ds ∧
      checkOpt c (c.scope.map
        (fun w => if w = u then some p.2 else assignedValue s w)) = false := by
  induction ds generalizing s with
  | nil => intro p hp; exact absurd hp (List.not_mem_nil p)
  | cons d ds ih =>
      simp only [fcRevise]
      split
      · next hchk =>
          intro p hp
          obtain ⟨h1, h2, h3⟩ := ih s p hp
          exact ⟨h1, List.mem_cons_of_mem _ h2, h3⟩
      · next hchk =>
          dsimp only
          intro p hp
          rcases List.mem_cons.mp hp with hpd | hpd
          · subst hpd
            refine ⟨rfl, List.mem_cons_self _ _, ?_⟩
            cases hval : checkOpt c (c.scope.map
                (fun w => if w = u then some d else assignedValue s w)) with
            | false => rfl
            | true => exact absurd hval hchk
          · obtain ⟨h1, h2, h3⟩ := ih (pruneValue s u d) p hpd
            rw [fcTuple_congr c u p.2 s (pruneValue s u d) rfl] at h3
            exact ⟨h1, List.mem_cons_of_mem _ h2, h3⟩

theorem fcRevise_mem (c : Constraint) (u : Nat) (ds : List Nat) (s : State) :
    ∀ x e, e ∈ curDomain s x →
      e ∈ curDomain (fcRevise c u ds s).2 x ∨ (x, e) ∈ (fcRevise c u ds s).1 := by
  induction ds generalizing s with
  | nil => intro x e he; exact Or.inl he
  | cons d ds ih =>
      simp only [fcRevise]
      split
      · exact ih s
      · dsimp only
        intro x e he
        by_cases hx : x = u
        · subst hx
          by_cases hee : e ∈ (curDomain s x).erase d
          · have he' : e ∈ curDomain (pruneValue s x d) x := by
              rw [curDomain_prune_self]
              exact hee
            rcases ih (pruneValue s x d) x e he' with h | h
            · exact Or.inl h
            · exact Or.inr (List.mem_cons_of_mem _ h)
          · right
            have : e = d := by
              by_contra hne
              exact hee ((List.mem_erase_of_ne hne).mpr he)
            subst this
            exact List.mem_cons_self _ _
        · have he' : e ∈ curDomain (pruneValue s u d) x := by
            rw [curDomain_prune_other s u d x hx]
            exact he
          rcases ih (pruneValue s u d) x e he' with h | h
          · exact Or.inl h
          · exact Or.inr (List.mem_cons_of_mem _ h)

theorem fcRevise_c8 (c : Constraint) (u : Nat) (ds : List Nat) (s : State)
    (hnd : (curDomain s u).Nodup) (hds : ds.Nodup)
    (hsub : ∀ e ∈ ds, e ∈ curDomain s u) :
    List.Sublist ((fcRevise c u ds s).1.map Prod.snd) ds ∧
    (∀ p ∈ (fcRevise c u ds s).1, p.2 ∉ curDomain (fcRevise c u ds s).2 u) ∧
    curSize (fcRevise c u ds s).2 u + (fcRevise c u ds s).1.length = curSize s u ∧
    (curDomain (fcRevise c u ds s).2 u).Nodup := by
  induction ds generalizing s with
  | nil =>
      refine ⟨List.Sublist.refl _, ?_, rfl, hnd⟩
      intro p hp
      exact absurd hp (List.not_mem_nil p)
  | cons d ds ih =>
      have hdmem : d ∈ curDomain s u := hsub d (List.mem_cons_self _ _)
      simp only [fcRevise]
      split
      · obtain ⟨h1, h2, h3, h4⟩ :=
          ih s hnd (List.Nodup.of_cons hds)
            (fun e he => hsub e (List.mem_cons_of_mem _ he))
        exact ⟨h1.cons d, h2, h3, h4⟩
      · have hnd' : (curDomain (pruneValue s u d) u).Nodup := by
          rw [curDomain_prune_self]
          exact hnd.erase d
        have hsub' : ∀ e ∈ ds, e ∈ curDomain (pruneValue s u d) u := by
          intro e he
          rw [curDomain_prune_self]
          have hed : e ≠ d := by
            intro heq
            subst heq
            exact (List.nodup_cons.mp hds).1 he
          exact (List.mem_erase_of_ne hed).mpr (hsub e (List.mem_cons_of_mem _ he))
        obtain ⟨h1, h2, h3, h4⟩ :=
          ih (pruneValue s u d) hnd' (List.Nodup.of_cons hds) hsub'
        dsimp only
        refine ⟨?_, ?_, ?_, h4⟩
        · simpa using h1.cons₂ d
        · intro p hp
          rcases List.mem_cons.mp hp with h | h
          · subst h
            intro hmem
            have hsubl := fcRevise_sublist c u ds (pruneValue s u d) u
            have : d ∈ curDomain (pruneValue s u d) u := hsubl.subset hmem
            rw [curDomain_prune_self] at this
            exact (hnd.mem_erase_iff.mp this).1 rfl
          · exact h2 p h
        · have hlen := List.length_erase_of_mem hdmem
          have hpos : 0 < curSize s u := List.length_pos_of_mem hdmem
          have h3' : curSize (pruneValue s u d) u = curSize s u - 1 := by
            simp only [curSize, curDomain_prune_self, hlen]
          simp only [List.length_cons]
          omega

theorem headD_of_length_one (l : List Nat) (h : l.length = 1) :
    l = [l.headD 0] := by
  cases l with
  | nil => simp at h
  | cons a t =>
      cases t with
      | nil => rfl
      | cons b t2 =>
          simp only [List.length_cons] at h
          omega

theorem fcLoop_assigns (cs : List Constraint) (s : State) :
    (fcLoop cs s).2.2.assigns = s.assigns := by
  induction cs generalizing s with
  | nil => rfl
  | cons c cs ih =>
      simp only [fcLoop]
      split
      · split
        · exact fcRevise_assigns c _ _ s
        · dsimp only
          rw [ih _, fcRevise_assigns]
      · exact ih s

theorem fcLoop_sublist (cs : List Constraint) (s : State) (x : Nat) :
    List.Sublist (curDomain (fcLoop cs s).2.2 x) (curDomain s x) := by
  induction cs generalizing s with
  | nil => exact List.Sublist.refl _
  | cons c cs ih =>
      simp only [fcLoop]
      split
      · split
        · exact fcRevise_sublist c _ _ s x
        · dsimp only
          exact (ih _).trans (fcRevise_sublist c _ _ s x)
      · exact ih s

theorem fcLoop_trace_mem (cs : List Constraint) (s : State) :
    ∀ p ∈ (fcLoop cs s).2.1, p.2 ∈ curDomain s p.1 := by
  induction cs generalizing s with
  | nil => intro p hp; exact absurd hp (List.not_mem_nil p)
  | cons c cs ih =>
      simp only [fcLoop]
      split
      · split
        · intro p hp
          obtain ⟨h1, h2, _⟩ := fcRevise_trace c _ _ s p hp
          rw [h1]
          exact h2
        · dsimp only
          intro p hp
          rcases List.mem_append.mp hp with hp | hp
          · obtain ⟨h1, h2, _⟩ := fcRevise_trace c _ _ s p hp
            rw [h1]
            exact h2
          · exact (fcRevise_sublist c _ _ s p.1).subset (ih _ p hp)
      · exact ih s

theorem fcLoop_mem (cs : List Constraint) (s : State) :
    ∀ x e, e ∈ curDomain s x →
      e ∈ curDomain (fcLoop cs s).2.2 x ∨ (x, e) ∈ (fcLoop cs s).2.1 := by
  induction cs generalizing s with
  | nil => intro x e he; exact Or.inl he
  | cons c cs ih =>
      simp only [fcLoop]
      split
      · split
        · exact fcRevise_mem c _ _ s
        · dsimp only
          intro x e he
          rcases fcRevise_mem c _ _ s x e he with h | h
          · rcases ih _ x e h with h' | h'
            · exact Or.inl h'
            · exact Or.inr (List.mem_append_right _ h')
          · exact Or.inr (List.mem_append_left _ h)
      · exact ih s

theorem fcLoop_trace (cs : List Constraint) (s : State) :
    ∀ p ∈ (fcLoop cs s).2.1, ∃ c ∈ cs, getNUnasgn s c = 1 ∧
      getUnasgnVars s c = [p.1] ∧
      checkOpt c (c.scope.map
        (fun w => if w = p.1 then some p.2 else assignedValue s w)) = false := by
  induction cs generalizing s with
  | nil => intro p hp; exact absurd hp (List.not_mem_nil p)
  | cons c cs ih =>
      simp only [fcLoop]
      split
      · next hguard =>
          have hu := headD_of_length_one _ hguard
          split
          · intro p hp
            obtain ⟨h1, _, h3⟩ := fcRevise_trace c _ _ s p hp
            rw [h1]
            exact ⟨c, List.mem_cons_self _ _, hguard, hu, h3⟩
          · dsimp only
            intro p hp
            rcases List.mem_append.mp hp with hp | hp
            · obtain ⟨h1, _, h3⟩ := fcRevise_trace c _ _ s p hp
              rw [h1]
              exact ⟨c, List.mem_cons_self _ _, hguard, hu, h3⟩
            · have hassign := fcRevise_assigns c ((getUnasgnVars s c).headD 0)
                (curDomain s ((getUnasgnVars s c).headD 0)) s
              obtain ⟨c', hc1, hc2, hc3, hc4⟩ := ih _ p hp
              refine ⟨c', List.mem_cons_of_mem _ hc1, ?_, ?_, ?_⟩
              · rw [← getNUnasgn_congr s _ hassign c']
                exact hc2
              · rw [← getUnasgnVars_congr s _ hassign c']
                exact hc3
              · rw [← fcTuple_congr c' p.1 p.2 s _ hassign]
                exact hc4
      · next hguard =>
          intro p hp
          obtain ⟨c', hc1, hc2, hc3, hc4⟩ := ih s p hp
          exact ⟨c', List.mem_cons_of_mem _ hc1, hc2, hc3, hc4⟩

theorem fcLoop_fail (cs : List Constraint) (s : State)
    (h : (fcLoop cs s).1 = false) :
    ∃ u, assignedValue s u = none ∧
      (∃ c0 ∈ cs, getNUnasgn s c0 = 1 ∧ getUnasgnVars s c0 = [u]) ∧
      ∀ d ∈ curDomain s u, ∃ c ∈ cs,
      getNUnasgn s c = 1 ∧ getUnasgnVars s c = [u] ∧
      checkOpt c (c.scope.map
        (fun w => if w = u then some d else assignedValue s w)) = false := by
  induction cs generalizing s with
  | nil => exact absurd h (by simp [fcLoop])
  | cons c cs ih =>
      simp only [fcLoop] at h
      split at h
      · next hguard =>
          have hu := headD_of_length_one _ hguard
          split at h
          · next hsz =>
              refine ⟨(getUnasgnVars s c).headD 0, ?_,
                ⟨c, List.mem_cons_self _ _, hguard, hu⟩, ?_⟩
              · have hmem : (getUnasgnVars s c).headD 0 ∈ getUnasgnVars s c := by
                  rw [hu]
                  exact List.mem_singleton.mpr rfl
                have hnone := (List.mem_filter.mp hmem).2
                exact Option.isNone_iff_eq_none.mp hnone
              · intro d hd
                have hempty : curDomain (fcRevise c ((getUnasgnVars s c).headD 0)
                    (curDomain s ((getUnasgnVars s c).headD 0)) s).2
                    ((getUnasgnVars s c).headD 0) = [] := by
                  rw [← List.length_eq_zero]
                  exact hsz
                rcases fcRevise_mem c _ _ s _ d hd with hmem | hmem
                · rw [hempty] at hmem
                  exact absurd hmem (List.not_mem_nil d)
                · obtain ⟨_, _, h3⟩ := fcRevise_trace c _ _ s _ hmem
                  exact ⟨c, List.mem_cons_self _ _, hguard, hu, h3⟩
          · next hsz =>
              dsimp only at h
              obtain ⟨u', hun, ⟨c0, hc01, hc02, hc03⟩, hall⟩ := ih _ h
              have hassign := fcRevise_assigns c ((getUnasgnVars s c).headD 0)
                (curDomain s ((getUnasgnVars s c).headD 0)) s
              refine ⟨u', ?_, ?_, ?_⟩
              · rw [← assignedValue_congr s _ hassign u']
                exact hun
              · refine ⟨c0, List.mem_cons_of_mem _ hc01, ?_, ?_⟩
                · rw [← getNUnasgn_congr s _ hassign c0]
                  exact hc02
                · rw [← getUnasgnVars_congr s _ hassign c0]
                  exact hc03
              · intro d hd
                by_cases hd' : d ∈ curDomain (fcRevise c ((getUnasgnVars s c).headD 0)
                    (curDomain s ((getUnasgnVars s c).headD 0)) s).2 u'
                · obtain ⟨c', hc1, hc2, hc3, hc4⟩ := hall d hd'
                  refine ⟨c', List.mem_cons_of_mem _ hc1, ?_, ?_, ?_⟩
                  · rw [← getNUnasgn_congr s _ hassign c']
                    exact hc2
                  · rw [← getUnasgnVars_congr s _ hassign c']
                    exact hc3
                  · rw [← fcTuple_congr c' u' d s _ hassign]
                    exact hc4
                · rcases fcRevise_mem c _ _ s u' d hd with hmem | hmem
                  · exact absurd hmem hd'
                  · obtain ⟨h1, _, h3⟩ := fcRevise_trace c _ _ s _ hmem
                    dsimp only at h1
                    rw [h1]
                    exact ⟨c, List.mem_cons_self _ _, hguard, hu, h3⟩
      · next hguard =>
          obtain ⟨u', hun, ⟨c0, hc01, hc02, hc03⟩, hall⟩ := ih s h
          refine ⟨u', hun, ⟨c0, List.mem_cons_of_mem _ hc01, hc02, hc03⟩,
            fun d hd => ?_⟩
          obtain ⟨c', hc1, hc2, hc3, hc4⟩ := hall d hd
          exact ⟨c', List.mem_cons_of_mem _ hc1, hc2, hc3, hc4⟩

theorem fcLoop_c8 (cs : List Constraint) (s : State)
    (hnd : ∀ x, (curDomain s x).Nodup) :
    (∀ x, (curDomain (fcLoop cs s).2.2 x).Nodup) ∧
    (fcLoop cs s).2.1.Nodup ∧
    (∀ p ∈ (fcLoop cs s).2.1, p.2 ∉ curDomain (fcLoop cs s).2.2 p.1) ∧
    (∀ x, curSize (fcLoop cs s).2.2 x +
      ((fcLoop cs s).2.1.filter (fun p => decide (p.1 = x))).length =
        curSize s x) := by
  induction cs generalizing s with
  | nil =>
      refine ⟨hnd, List.nodup_nil, ?_, fun x => rfl⟩
      intro p hp
      exact absurd hp (List.not_mem_nil p)
  | cons c cs ih =>
      simp only [fcLoop]
      split
      · next hguard =>
          obtain ⟨h1, h2, h3, h4⟩ := fcRevise_c8 c ((getUnasgnVars s c).headD 0)
            (curDomain s ((getUnasgnVars s c).headD 0)) s
            (hnd _) (hnd _) (fun e he => he)
          have hndmid : ∀ x, (curDomain (fcRevise c ((getUnasgnVars s c).headD 0)
              (curDomain s ((getUnasgnVars s c).headD 0)) s).2 x).Nodup := by
            intro x
            by_cases hx : x = (getUnasgnVars s c).headD 0
            · subst hx
              exact h4
            · rw [fcRevise_doms_other c _ _ s x hx]
              exact hnd x
          have htrNodup : (fcRevise c ((getUnasgnVars s c).headD 0)
              (curDomain s ((getUnasgnVars s c).headD 0)) s).1.Nodup :=
            List.Nodup.of_map Prod.snd (List.Nodup.sublist h1 (hnd _))
          have hallu : ∀ p ∈ (fcRevise c ((getUnasgnVars s c).headD 0)
              (curDomain s ((getUnasgnVars s c).headD 0)) s).1,
              decide (p.1 = (getUnasgnVars s c).headD 0) = true := by
            intro p hp
            simp [(fcRevise_trace c _ _ s p hp).1]
          have hfilu : ((fcRevise c ((getUnasgnVars s c).headD 0)
              (curDomain s ((getUnasgnVars s c).headD 0)) s).1.filter
              (fun p => decide (p.1 = (getUnasgnVars s c).headD 0))).length =
              (fcRevise c ((getUnasgnVars s c).headD 0)
              (curDomain s ((getUnasgnVars s c).headD 0)) s).1.length := by
            rw [List.filter_eq_self.mpr hallu]
          have hfilne : ∀ x, x ≠ (getUnasgnVars s c).headD 0 →
              ((fcRevise c ((getUnasgnVars s c).headD 0)
              (curDomain s ((getUnasgnVars s c).headD 0)) s).1.filter
              (fun p => decide (p.1 = x))) = [] := by
            intro x hx
            rw [List.filter_eq_nil_iff]
            intro p hp
            have := (fcRevise_trace c _ _ s p hp).1
            simp only [this, decide_eq_true_eq]
            intro hcon
            exact hx hcon.symm
          split
          · dsimp only
            refine ⟨hndmid, htrNodup, ?_, ?_⟩
            · intro p hp
              rw [(fcRevise_trace c _ _ s p hp).1]
              exact h2 p hp
            · intro x
              by_cases hx : x = (getUnasgnVars s c).headD 0
              · subst hx
                rw [hfilu]
                exact h3
              · rw [hfilne x hx]
                simp only [List.length_nil, Nat.add_zero]
                simp only [curSize, fcRevise_doms_other c _ _ s x hx]
          · obtain ⟨g1, g2, g3, g4⟩ := ih _ hndmid
            dsimp only
            refine ⟨g1, ?_, ?_, ?_⟩
            · refine List.Nodup.append htrNodup g2 ?_
              intro p hp1 hp2
              have hpv := (fcRevise_trace c _ _ s p hp1).1
              have hin := fcLoop_trace_mem cs _ p hp2
              rw [hpv] at hin
              exact (h2 p hp1) hin
            · intro p hp
              rcases List.mem_append.mp hp with hp | hp
              · have hpv := (fcRevise_trace c _ _ s p hp).1
                rw [hpv]
                intro hmem
                exact (h2 p hp) ((fcLoop_sublist cs _ _).subset hmem)
              · exact g3 p hp
            · intro x
              rw [List.filter_append, List.length_append]
              by_cases hx : x = (getUnasgnVars s c).headD 0
              · rw [hx, hfilu]
                have hg := g4 ((getUnasgnVars s c).headD 0)
                omega
              · rw [hfilne x hx]
                have hmid : curSize (fcRevise c ((getUnasgnVars s c).headD 0)
                    (curDomain s ((getUnasgnVars s c).headD 0)) s).2 x =
                    curSize s x := by
                  simp only [curSize, fcRevise_doms_other c _ _ s x hx]
                have hg := g4 x
                simp only [List.length_nil]
                omega
      · exact ih s hnd

/-! ## `prop_FI` runs its loop to completion -/

theorem prop_FI_eq (csp : CSP) (newVar : Option Nat) (s : State) :
    fiLoopF csp (fiFuel s (initQueue csp newVar)) (initQueue csp newVar) s =
      some (prop_FI csp newVar s) := by
  obtain ⟨r, hr⟩ := fiLoopF_total csp (fiFuel s (initQueue csp newVar))
    (initQueue csp newVar) s (by unfold fiFuel; omega)
  rw [hr]
  unfold prop_FI
  rw [hr]
  rfl

/-! ## Forward checking refines its specification -/

theorem fcRevise_eq_spec (c : Constraint) (u : Nat) (ds : List Nat) (s : State)
    (hu : getUnasgnVars s c = [u]) :
    fcRevise c u ds s = fcRevise_spec c u ds s := by
  induction ds generalizing s with
  | nil => rfl
  | cons d ds ih =>
      have htup : c.scope.map
          (fun w => if w = u then some d else assignedValue s w) =
          fcSpecTuple s c d := by
        unfold fcSpecTuple
        apply List.map_congr_left
        intro w hw
        by_cases hwu : w = u
        · subst hwu
          have humem : w ∈ getUnasgnVars s c := by
            rw [hu]
            exact List.mem_singleton.mpr rfl
          have hnone := (List.mem_filter.mp humem).2
          have hns : (assignedValue s w).isSome = false := by
            cases hval : assignedValue s w with
            | none => rfl
            | some a =>
                rw [hval] at hnone
                exact absurd hnone (by simp)
          simp [hns]
        · have hwmem : w ∉ getUnasgnVars s c := by
            rw [hu]
            simp [hwu]
          have hsome : (assignedValue s w).isSome = true := by
            cases hval : assignedValue s w with
            | some a => rfl
            | none =>
                exfalso
                apply hwmem
                unfold getUnasgnVars
                rw [List.mem_filter]
                refine ⟨hw, ?_⟩
                rw [hval]
                rfl
          simp [hwu, hsome]
      simp only [fcRevise, fcRevise_spec]
      rw [htup]
      by_cases hchk : checkOpt c (fcSpecTuple s c d) = true
      · rw [if_pos hchk, if_pos hchk]
        exact ih s hu
      · rw [if_neg hchk, if_neg hchk]
        have hu' : getUnasgnVars (pruneValue s u d) c = [u] := by
          rw [getUnasgnVars_congr s (pruneValue s u d) rfl c]
          exact hu
        rw [ih (pruneValue s u d) hu']

theorem fcLoop_eq_spec (cs : List Constraint) (s : State) :
    fcLoop cs s = fcLoop_spec cs s := by
  induction cs generalizing s with
  | nil => rfl
  | cons c cs ih =>
      cases hu : getUnasgnVars s c with
      | nil =>
          have hn : getNUnasgn s c = 0 := by
            unfold getNUnasgn
            rw [hu]
            rfl
          simp only [fcLoop, fcLoop_spec, hu]
          rw [if_neg (by omega)]
          exact ih s
      | cons u t =>
          cases t with
          | nil =>
              have hn : getNUnasgn s c = 1 := by
                unfold getNUnasgn
                rw [hu]
                rfl
              simp only [fcLoop, fcLoop_spec, hu]
              rw [if_pos hn]
              simp only [List.headD_cons]
              rw [fcRevise_eq_spec c u (curDomain s u) s hu]
              by_cases hsz : curSize (fcRevise_spec c u (curDomain s u) s).2 u = 0
              · rw [if_pos hsz, if_pos hsz]
              · rw [if_neg hsz, if_neg hsz, ih _]
          | cons u2 rest =>
              have hn : getNUnasgn s c = rest.length + 2 := by
                unfold getNUnasgn
                rw [hu]
                rfl
              simp only [fcLoop, fcLoop_spec, hu]
              rw [if_neg (by omega)]
              exact ih s

/-! ## Cage constraints of `caged_csp`: permutation closure -/

theorem mem_insFold (ps : List (List Int)) (acc : List (List Int)) (x : List Int) :
    x ∈ ps.foldl (fun a p => if p ∈ a then a else a ++ [p]) acc ↔
      x ∈ acc ∨ x ∈ ps := by
  induction ps generalizing acc with
  | nil => simp
  | cons p ps ih =>
      simp only [List.foldl_cons]
      by_cases hp : p ∈ acc
      · rw [if_pos hp, ih]
        constructor
        · rintro (h | h)
          · exact Or.inl h
          · exact Or.inr (List.mem_cons_of_mem _ h)
        · rintro (h | h)
          · exact Or.inl h
          · rcases List.mem_cons.mp h with heq | h
            · subst heq
              exact Or.inl hp
            · exact Or.inr h
      · rw [if_neg hp, ih]
        simp only [List.mem_append, List.mem_singleton, List.mem_cons]
        tauto

theorem perm_of_mem_insertsOf (x : Int) (t l : List Int)
    (h : l ∈ insertsOf x t) : List.Perm l (x :: t) := by
  induction t generalizing l with
  | nil =>
      simp only [insertsOf, List.mem_singleton] at h
      subst h
      exact List.Perm.refl _
  | cons y ys ih =>
      simp only [insertsOf, List.mem_cons, List.mem_map] at h
      rcases h with h | ⟨l', hl', rfl⟩
      · subst h
        exact List.Perm.refl _
      · exact (List.Perm.cons y (ih l' hl')).trans (List.Perm.swap x y ys)

theorem append_cons_mem_insertsOf (x : Int) (l1 l2 : List Int) :
    l1 ++ x :: l2 ∈ insertsOf x (l1 ++ l2) := by
  induction l1 with
  | nil =>
      cases l2 with
      | nil => exact List.mem_singleton.mpr rfl
      | cons y ys => exact List.mem_cons_self _ _
  | cons a l1 ih =>
      simp only [List.cons_append, insertsOf, List.mem_cons, List.mem_map]
      exact Or.inr ⟨l1 ++ x :: l2, ih, rfl⟩

theorem mem_permsOf (t u : List Int) :
    u ∈ permsOf t ↔ List.Perm u t := by
  induction t generalizing u with
  | nil =>
      simp only [permsOf, List.mem_singleton]
      constructor
      · rintro rfl
        exact List.Perm.refl _
      · intro h
        exact h.eq_nil
  | cons x xs ih =>
      simp only [permsOf, List.mem_flatMap]
      constructor
      · rintro ⟨p, hp, hu⟩
        exact (perm_of_mem_insertsOf x p u hu).trans
          (List.Perm.cons x ((ih p).mp hp))
      · intro h
        have hx : x ∈ u := h.mem_iff.mpr (List.mem_cons_self _ _)
        obtain ⟨l1, l2, rfl⟩ := List.append_of_mem hx
        have hmid : List.Perm (x :: (l1 ++ l2)) (x :: xs) :=
          List.perm_middle.symm.trans h
        have htail : List.Perm (l1 ++ l2) xs := hmid.cons_inv
        exact ⟨l1 ++ l2, (ih _).mpr htail, append_cons_mem_insertsOf x l1 l2⟩

theorem mem_addPerms (acc : List (List Int)) (t x : List Int) :
    x ∈ addPerms acc t ↔ x ∈ acc ∨ x ∈ permsOf t := by
  unfold addPerms
  exact mem_insFold (permsOf t) acc x

theorem mem_satFold (ts : List (List Int)) (pred : List Int → Bool)
    (acc : List (List Int)) (x : List Int) :
    x ∈ ts.foldl (fun acc t => if pred t then addPerms acc t else acc) acc ↔
      x ∈ acc ∨ ∃ t ∈ ts, pred t = true ∧ x ∈ permsOf t := by
  induction ts generalizing acc with
  | nil => simp
  | cons t ts ih =>
      simp only [List.foldl_cons]
      by_cases hp : pred t = true
      · rw [if_pos hp, ih, mem_addPerms]
        constructor
        · rintro ((h | h) | ⟨t', ht', hp', hx⟩)
          · exact Or.inl h
          · exact Or.inr ⟨t, List.mem_cons_self _ _, hp, h⟩
          · exact Or.inr ⟨t', List.mem_cons_of_mem _ ht', hp', hx⟩
        · rintro (h | ⟨t', ht', hp', hx⟩)
          · exact Or.inl (Or.inl h)
          · rcases List.mem_cons.mp ht' with heq | ht'
            · subst heq
              exact Or.inl (Or.inr hx)
            · exact Or.inr ⟨t', ht', hp', hx⟩
      · rw [if_neg hp, ih]
        constructor
        · rintro (h | ⟨t', ht', hp', hx⟩)
          · exact Or.inl h
          · exact Or.inr ⟨t', List.mem_cons_of_mem _ ht', hp', hx⟩
        · rintro (h | ⟨t', ht', hp', hx⟩)
          · exact Or.inl h
          · rcases List.mem_cons.mp ht' with heq | ht'
            · subst heq
              exact absurd hp' hp
            · exact Or.inr ⟨t', ht', hp', hx⟩

theorem mem_tuplesOf (dom : List Int) (k : Nat) (t : List Int) :
    t ∈ tuplesOf dom k ↔ t.length = k ∧ ∀ x ∈ t, x ∈ dom := by
  induction k generalizing t with
  | zero =>
      simp only [tuplesOf, List.mem_singleton]
      constructor
      · rintro rfl
        exact ⟨rfl, fun x hx => absurd hx (List.not_mem_nil x)⟩
      · rintro ⟨hlen, _⟩
        exact List.length_eq_zero.mp hlen
  | succ k ih =>
      simp only [tuplesOf, List.mem_flatMap, List.mem_map]
      constructor
      · rintro ⟨x, hx, t', ht', rfl⟩
        obtain ⟨hlen, hmem⟩ := (ih t').mp ht'
        refine ⟨by simp [hlen], ?_⟩
        intro y hy
        rcases List.mem_cons.mp hy with rfl | hy
        · exact hx
        · exact hmem y hy
      · rintro ⟨hlen, hmem⟩
        cases t with
        | nil => simp at hlen
        | cons a t' =>
            refine ⟨a, hmem a (List.mem_cons_self _ _), t', ?_, rfl⟩
            refine (ih t').mpr ⟨?_, ?_⟩
            · simpa using hlen
            · exact fun y hy => hmem y (List.mem_cons_of_mem _ hy)

theorem mem_cageSatTuples (pred : List Int → Bool) (dom : List Int) (k : Nat)
    (u : List Int) :
    u ∈ cageSatTuples pred dom k ↔
      u.length = k ∧ (∀ x ∈ u, x ∈ dom) ∧
        ∃ p, List.Perm p u ∧ pred p = true := by
  unfold cageSatTuples
  rw [mem_satFold]
  simp only [List.not_mem_nil, false_or]
  constructor
  · rintro ⟨t, ht, hp, hx⟩
    have hperm : List.Perm u t := (mem_permsOf t u).mp hx
    obtain ⟨hlen, hmem⟩ := (mem_tuplesOf dom k t).mp ht
    refine ⟨hperm.length_eq.trans hlen, ?_, t, hperm.symm, hp⟩
    intro x hx'
    exact hmem x (hperm.mem_iff.mp hx')
  · rintro ⟨hlen, hmem, p, hperm, hp⟩
    refine ⟨p, ?_, hp, ?_⟩
    · rw [mem_tuplesOf]
      refine ⟨hperm.length_eq.trans hlen, ?_⟩
      intro x hx
      exact hmem x (hperm.mem_iff.mp hx)
    · exact (mem_permsOf p u).mpr hperm.symm

/-! ## Forward-checking failure forces full-inference failure -/

theorem sublist_singleton_of_ne_nil (l : List Nat) (a : Nat)
    (hsub : List.Sublist l [a]) (hne : l ≠ []) : l = [a] := by
  have hlen := hsub.length_le
  have hpos : 0 < l.length := List.length_pos_of_ne_nil hne
  refine hsub.eq_of_length ?_
  simp only [List.length_singleton] at hlen ⊢
  omega

theorem supportChoices_singleton (s' : State) (u d0 : Nat) (ws : List Nat)
    (f : Nat → Nat) (h : ∀ w ∈ ws, w ≠ u → curDomain s' w = [f w]) :
    supportChoices s' u d0 ws =
      [ws.map (fun w => if w = u then d0 else f w)] := by
  induction ws with
  | nil => rfl
  | cons w ws ih =>
      have hrest := ih (fun x hx => h x (List.mem_cons_of_mem _ hx))
      by_cases hw : w = u
      · simp [supportChoices, hw, hrest]
      · simp [supportChoices, hw, hrest, h w (List.mem_cons_self _ _) hw]

theorem checkOpt_assigned (c : Constraint) (u d0 : Nat) (s : State) (l : List Nat)
    (h : ∀ w ∈ l, w ≠ u → (assignedValue s w).isSome = true) :
    optList (l.map (fun w => if w = u then some d0 else assignedValue s w)) =
      some (l.map (fun w => if w = u then d0 else (assignedValue s w).getD 0)) := by
  induction l with
  | nil => rfl
  | cons w l ih =>
      have hrest := ih (fun x hx => h x (List.mem_cons_of_mem _ hx))
      by_cases hw : w = u
      · simp only [List.map_cons, if_pos hw, optList, hrest, Option.map_some']
      · obtain ⟨a, ha⟩ := Option.isSome_iff_exists.mp
          (h w (List.mem_cons_self _ _) hw)
        simp only [List.map_cons, if_neg hw, ha, optList, hrest,
          Option.map_some', Option.getD_some]

/-- C5 (amended): on any CSP state whose constraint-scope variables have
nonempty current domains, where every assigned scope variable's current
domain is exactly its assigned value, where the trigger (if any) is
assigned, and where (for the no-trigger call) every constraint with
exactly one unassigned variable also has an assigned scope variable among
the CSP's variables, a `prop_FC` failure forces a `prop_FI` failure: full
inference is at least as strong as forward checking at detecting dead
ends.  (As stated, the claim is refuted by `C5_FC_fails_FI_succeeds`:
unary constraints are never revised by `prop_FI`.) -/
theorem prop_FC_fail_FI_fail (csp : CSP) (newVar : Option Nat) (s : State)
    (hne : ∀ c ∈ csp.cons, ∀ v ∈ c.scope, curDomain s v ≠ [])
    (hsingle : ∀ c ∈ csp.cons, ∀ v ∈ c.scope, ∀ a,
      assignedValue s v = some a → curDomain s v = [a])
    (htrig : ∀ x, newVar = some x → (assignedValue s x).isSome = true)
    (hbin : newVar = none → ∀ c ∈ csp.cons, getNUnasgn s c = 1 →
      ∃ w ∈ c.scope, (assignedValue s w).isSome = true ∧ w ∈ csp.vars)
    (hfc : (prop_FC csp newVar s).1 = false) :
    (prop_FI csp newVar s).1 = false := by
  cases hfi : (prop_FI csp newVar s).1 with
  | false => rfl
  | true =>
      exfalso
      have heq := prop_FI_eq csp newVar s
      unfold prop_FC at hfc
      obtain ⟨u, huna, ⟨c0, hc00, hc01, hc02⟩, hall⟩ := fcLoop_fail _ s hfc
      have humem : u ∈ getUnasgnVars s c0 := by
        rw [hc02]
        exact List.mem_singleton.mpr rfl
      have huscope : u ∈ c0.scope := (List.mem_filter.mp humem).1
      have hc0cons : c0 ∈ csp.cons := by
        cases newVar with
        | none => exact hc00
        | some x =>
            exact (List.mem_filter.mp
              (show c0 ∈ getConsWithVar csp x from hc00)).1
      have hupre : curDomain s u ≠ [] := hne c0 hc0cons u huscope
      have hufin : curDomain (prop_FI csp newVar s).2.2 u ≠ [] :=
        fiLoopF_nonempty csp _ _ s _ heq hfi u hupre
      obtain ⟨d0, hd0⟩ := List.exists_mem_of_ne_nil _ hufin
      have hd0pre : d0 ∈ curDomain s u :=
        (fiLoopF_sublist csp _ _ s _ heq u).subset hd0
      obtain ⟨c, hcmem, hn1, hunasgn, hchk⟩ := hall d0 hd0pre
      have hccons : c ∈ csp.cons := by
        cases newVar with
        | none => exact hcmem
        | some x =>
            exact (List.mem_filter.mp
              (show c ∈ getConsWithVar csp x from hcmem)).1
      have huscope' : u ∈ c.scope := by
        have hm : u ∈ getUnasgnVars s c := by
          rw [hunasgn]
          exact List.mem_singleton.mpr rfl
        exact (List.mem_filter.mp hm).1
      have hassigned : ∀ w ∈ c.scope, w ≠ u →
          (assignedValue s w).isSome = true := by
        intro w hw hwne
        cases hval : assignedValue s w with
        | some a => rfl
        | none =>
            exfalso
            have hm : w ∈ getUnasgnVars s c := by
              unfold getUnasgnVars
              rw [List.mem_filter]
              refine ⟨hw, ?_⟩
              rw [hval]
              rfl
            rw [hunasgn] at hm
            exact hwne (List.mem_singleton.mp hm)
      have hgood : Good c u s (initQueue csp newVar) := by
        cases newVar with
        | some x =>
            right
            have hx : x ∈ c.scope := by
              have := (List.mem_filter.mp
                (show c ∈ getConsWithVar csp x from hcmem)).2
              simpa using this
            have hxs := htrig x rfl
            have hxu : x ≠ u := by
              intro heq'
              rw [heq', huna] at hxs
              exact absurd hxs (by simp)
            exact ⟨x, hx, hxu, by simp [initQueue]⟩
        | none =>
            right
            obtain ⟨w, hw1, hw2, hw3⟩ := hbin rfl c hccons hn1
            have hwu : w ≠ u := by
              intro heq'
              rw [heq', huna] at hw2
              exact absurd hw2 (by simp)
            exact ⟨w, hw1, hwu, by simpa [initQueue] using hw3⟩
      have hsup := fiLoopF_main csp _ _ s _ heq hfi c hccons u huscope' hgood d0 hd0
      have hfinsingle : ∀ w ∈ c.scope, w ≠ u →
          curDomain (prop_FI csp newVar s).2.2 w =
            [(assignedValue s w).getD 0] := by
        intro w hw hwne
        obtain ⟨a, ha⟩ := Option.isSome_iff_exists.mp (hassigned w hw hwne)
        have hpre : curDomain s w = [a] := hsingle c hccons w hw a ha
        have hsubl := fiLoopF_sublist csp _ _ s _ heq w
        rw [hpre] at hsubl
        have hnef : curDomain (prop_FI csp newVar s).2.2 w ≠ [] := by
          refine fiLoopF_nonempty csp _ _ s _ heq hfi w ?_
          rw [hpre]
          simp
        rw [ha, sublist_singleton_of_ne_nil _ a hsubl hnef]
        rfl
      unfold hasSupport at hsup
      rw [supportChoices_singleton _ u d0 c.scope
        (fun w => (assignedValue s w).getD 0) hfinsingle] at hsup
      simp only [List.any_cons, List.any_nil, Bool.or_false] at hsup
      have hopt := checkOpt_assigned c u d0 s c.scope hassigned
      unfold checkOpt at hchk
      rw [hopt] at hchk
      dsimp only at hchk
      rw [hsup] at hchk
      exact Bool.noConfusion hchk

theorem curDomain_nodup_of_doms (s : State) (h : ∀ l ∈ s.doms, l.Nodup)
    (v : Nat) : (curDomain s v).Nodup := by
  unfold curDomain
  by_cases hv : v < s.doms.length
  · have hmem : s.doms.getD v [] ∈ s.doms := by
      rw [List.getD_eq_getElem _ _ hv]
      exact List.getElem_mem hv
    exact h _ hmem
  · rw [getD_oob _ _ (Nat.le_of_not_lt hv)]
    exact List.nodup_nil

/-! ## Removal-time soundness: the state at the moment of each prune -/

theorem getD_append_left {α : Type} (l₁ l₂ : List α) (i : Nat) (e : α)
    (h : i < l₁.length) : (l₁ ++ l₂).getD i e = l₁.getD i e := by
  induction l₁ generalizing i with
  | nil => exact absurd h (by simp)
  | cons a as ih =>
      cases i with
      | zero => rfl
      | succ j =>
          simp only [List.cons_append, List.getD_cons_succ]
          exact ih j (by simp only [List.length_cons] at h; omega)

theorem getD_append_right {α : Type} (l₁ l₂ : List α) (i : Nat) (e : α)
    (h : l₁.length ≤ i) : (l₁ ++ l₂).getD i e = l₂.getD (i - l₁.length) e := by
  induction l₁ generalizing i with
  | nil => simp
  | cons a as ih =>
      cases i with
      | zero => exact absurd h (by simp)
      | succ j =>
          have hj : as.length ≤ j := by simp only [List.length_cons] at h; omega
          have he : j + 1 - (a :: as).length = j - as.length := by
            simp only [List.length_cons]; omega
          simp only [List.cons_append, List.getD_cons_succ]
          rw [ih j hj, he]

theorem take_append_left {α : Type} (l₁ l₂ : List α) (i : Nat)
    (h : i ≤ l₁.length) : (l₁ ++ l₂).take i = l₁.take i := by
  induction l₁ generalizing i with
  | nil =>
      have hi : i = 0 := Nat.le_zero.mp (by simpa using h)
      subst hi
      rfl
  | cons a as ih =>
      cases i with
      | zero => rfl
      | succ j =>
          simp only [List.cons_append, List.take_succ_cons]
          rw [ih j (by simp only [List.length_cons] at h; omega)]

theorem take_append_right {α : Type} (l₁ l₂ : List α) (i : Nat)
    (h : l₁.length ≤ i) : (l₁ ++ l₂).take i = l₁ ++ l₂.take (i - l₁.length) := by
  induction l₁ generalizing i with
  | nil => simp
  | cons a as ih =>
      cases i with
      | zero => exact absurd h (by simp)
      | succ j =>
          have hj : as.length ≤ j := by simp only [List.length_cons] at h; omega
          have he : j + 1 - (a :: as).length = j - as.length := by
            simp only [List.length_cons]; omega
          simp only [List.cons_append, List.take_succ_cons, he]
          rw [ih j hj]

theorem replayPrunes_cons (s : State) (p : Nat × Nat) (tr : List (Nat × Nat)) :
    replayPrunes s (p :: tr) = replayPrunes (pruneValue s p.1 p.2) tr := rfl

theorem replayPrunes_append (s : State) (t1 t2 : List (Nat × Nat)) :
    replayPrunes s (t1 ++ t2) = replayPrunes (replayPrunes s t1) t2 := by
  simp [replayPrunes, List.foldl_append]

theorem fiRevVals_replay (c : Constraint) (v : Nat) (ds : List Nat) (s : State) :
    (fiRevVals c v ds s).2.1 = replayPrunes s (fiRevVals c v ds s).1 := by
  induction ds generalizing s with
  | nil => rfl
  | cons d ds ih =>
      simp only [fiRevVals]
      split
      · exact ih s
      · split
        · rfl
        · dsimp only
          rw [ih (pruneValue s v d)]
          rfl

theorem fiRevVals_removal (c : Constraint) (v : Nat) (ds : List Nat) (s : State) :
    ∀ i, i < (fiRevVals c v ds s).1.length →
      ((fiRevVals c v ds s).1.getD i (0, 0)).1 = v ∧
      hasSupport c v ((fiRevVals c v ds s).1.getD i (0, 0)).2
        (replayPrunes s ((fiRevVals c v ds s).1.take i)) = false := by
  induction ds generalizing s with
  | nil => intro i hi; exact absurd hi (by simp [fiRevVals])
  | cons d ds ih =>
      simp only [fiRevVals]
      split
      · exact ih s
      · next hsup =>
          have hsup' : hasSupport c v d s = false := by
            cases hval : hasSupport c v d s with
            | false => rfl
            | true => exact absurd hval hsup
          split
          · dsimp only
            intro i hi
            simp only [List.length_cons, List.length_nil] at hi
            have hi0 : i = 0 := by omega
            subst hi0
            simp only [List.getD_cons_zero, List.take_zero]
            exact ⟨trivial, hsup'⟩
          · dsimp only
            intro i hi
            cases i with
            | zero =>
                simp only [List.getD_cons_zero, List.take_zero]
                exact ⟨trivial, hsup'⟩
            | succ j =>
                simp only [List.length_cons] at hi
                simp only [List.getD_cons_succ, List.take_succ_cons,
                  replayPrunes_cons]
                exact ih (pruneValue s v d) j (by omega)

theorem fiRevScope_replay (c : Constraint) (w : Nat) (vs : List Nat)
    (s : State) (q : List Nat) :
    (fiRevScope c w vs s q).2.1 = replayPrunes s (fiRevScope c w vs s q).1 := by
  induction vs generalizing s q with
  | nil => rfl
  | cons v vs ih =>
      simp only [fiRevScope]
      split
      · exact ih s q
      · split
        · exact fiRevVals_replay c v (curDomain s v) s
        · dsimp only
          rw [replayPrunes_append, ← fiRevVals_replay c v (curDomain s v) s]
          exact ih _ _

theorem fiRevScope_removal (c : Constraint) (w : Nat) (vs : List Nat)
    (s : State) (q : List Nat) :
    ∀ i, i < (fiRevScope c w vs s q).1.length →
      ((fiRevScope c w vs s q).1.getD i (0, 0)).1 ∈ vs ∧
      ((fiRevScope c w vs s q).1.getD i (0, 0)).1 ≠ w ∧
      hasSupport c ((fiRevScope c w vs s q).1.getD i (0, 0)).1
        ((fiRevScope c w vs s q).1.getD i (0, 0)).2
        (replayPrunes s ((fiRevScope c w vs s q).1.take i)) = false := by
  induction vs generalizing s q with
  | nil => intro i hi; exact absurd hi (by simp [fiRevScope])
  | cons v vs ih =>
      simp only [fiRevScope]
      split
      · intro i hi
        obtain ⟨h1, h2, h3⟩ := ih s q i hi
        exact ⟨List.mem_cons_of_mem _ h1, h2, h3⟩
      · next hvw =>
          split
          · dsimp only
            intro i hi
            obtain ⟨h1, h2⟩ := fiRevVals_removal c v (curDomain s v) s i hi
            rw [h1]
            exact ⟨List.mem_cons_self _ _, hvw, h2⟩
          · dsimp only
            intro i hi
            by_cases hlt : i < (fiRevVals c v (curDomain s v) s).1.length
            · rw [getD_append_left _ _ i _ hlt,
                take_append_left _ _ i (Nat.le_of_lt hlt)]
              obtain ⟨h1, h2⟩ := fiRevVals_removal c v (curDomain s v) s i hlt
              rw [h1]
              exact ⟨List.mem_cons_self _ _, hvw, h2⟩
            · have hge := Nat.le_of_not_lt hlt
              rw [getD_append_right _ _ i _ hge, take_append_right _ _ i hge,
                replayPrunes_append, ← fiRevVals_replay c v (curDomain s v) s]
              have hi' : i - (fiRevVals c v (curDomain s v) s).1.length <
                  (fiRevScope c w vs (fiRevVals c v (curDomain s v) s).2.1
                    (enqueueCheck v (curSize s v)
                      (fiRevVals c v (curDomain s v) s).2.1 q)).1.length := by
                rw [List.length_append] at hi
                omega
              obtain ⟨h1, h2, h3⟩ := ih _ _ _ hi'
              exact ⟨List.mem_cons_of_mem _ h1, h2, h3⟩

theorem fiCons_replay (w : Nat) (cs : List Constraint) (s : State)
    (q : List Nat) :
    (fiCons w cs s q).2.1 = replayPrunes s (fiCons w cs s q).1 := by
  induction cs generalizing s q with
  | nil => rfl
  | cons c cs ih =>
      simp only [fiCons]
      split
      · exact fiRevScope_replay c w c.scope s q
      · dsimp only
        rw [replayPrunes_append, ← fiRevScope_replay c w c.scope s q]
        exact ih _ _

theorem fiCons_removal (w : Nat) (cs : List Constraint) (s : State)
    (q : List Nat) :
    ∀ i, i < (fiCons w cs s q).1.length →
      ∃ c ∈ cs, ((fiCons w cs s q).1.getD i (0, 0)).1 ∈ c.scope ∧
        ((fiCons w cs s q).1.getD i (0, 0)).1 ≠ w ∧
        hasSupport c ((fiCons w cs s q).1.getD i (0, 0)).1
          ((fiCons w cs s q).1.getD i (0, 0)).2
          (replayPrunes s ((fiCons w cs s q).1.take i)) = false := by
  induction cs generalizing s q with
  | nil => intro i hi; exact absurd hi (by simp [fiCons])
  | cons c cs ih =>
      simp only [fiCons]
      split
      · intro i hi
        obtain ⟨h1, h2, h3⟩ := fiRevScope_removal c w c.scope s q i hi
        exact ⟨c, List.mem_cons_self _ _, h1, h2, h3⟩
      · dsimp only
        intro i hi
        by_cases hlt : i < (fiRevScope c w c.scope s q).1.length
        · rw [getD_append_left _ _ i _ hlt,
            take_append_left _ _ i (Nat.le_of_lt hlt)]
          obtain ⟨h1, h2, h3⟩ := fiRevScope_removal c w c.scope s q i hlt
          exact ⟨c, List.mem_cons_self _ _, h1, h2, h3⟩
        · have hge := Nat.le_of_not_lt hlt
          rw [getD_append_right _ _ i _ hge, take_append_right _ _ i hge,
            replayPrunes_append, ← fiRevScope_replay c w c.scope s q]
          have hi' : i - (fiRevScope c w c.scope s q).1.length <
              (fiCons w cs (fiRevScope c w c.scope s q).2.1
                (fiRevScope c w c.scope s q).2.2.1).1.length := by
            rw [List.length_append] at hi
            omega
          obtain ⟨c', hc1, h1, h2, h3⟩ := ih _ _ _ hi'
          exact ⟨c', List.mem_cons_of_mem _ hc1, h1, h2, h3⟩

theorem fiLoopF_replay (csp : CSP) (fuel : Nat) (q : List Nat) (s : State)
    (r : Bool × List (Nat × Nat) × State) (h : fiLoopF csp fuel q s = some r) :
    r.2.2 = replayPrunes s r.2.1 := by
  induction fuel generalizing q s r with
  | zero => exact absurd h (by simp [fiLoopF])
  | succ fuel ih =>
      cases q with
      | nil =>
          simp only [fiLoopF] at h
          injection h with h
          subst h
          rfl
      | cons w rest =>
          simp only [fiLoopF] at h
          split at h
          · injection h with h
            subst h
            exact fiCons_replay w _ s rest
          · cases hrec : fiLoopF csp fuel
                (fiCons w (getConsWithVar csp w) s rest).2.2.1
                (fiCons w (getConsWithVar csp w) s rest).2.1 with
            | none =>
                rw [hrec] at h
                exact absurd h (by simp)
            | some r' =>
                rw [hrec] at h
                dsimp only at h
                injection h with h
                subst h
                dsimp only
                rw [replayPrunes_append,
                  ← fiCons_replay w (getConsWithVar csp w) s rest]
                exact ih _ _ _ hrec

theorem fiLoopF_removal (csp : CSP) (fuel : Nat) (q : List Nat) (s : State)
    (r : Bool × List (Nat × Nat) × State) (h : fiLoopF csp fuel q s = some r) :
    ∀ i, i < r.2.1.length →
      ∃ w, ∃ c ∈ getConsWithVar csp w, (r.2.1.getD i (0, 0)).1 ∈ c.scope ∧
        (r.2.1.getD i (0, 0)).1 ≠ w ∧
        hasSupport c (r.2.1.getD i (0, 0)).1 (r.2.1.getD i (0, 0)).2
          (replayPrunes s (r.2.1.take i)) = false := by
  induction fuel generalizing q s r with
  | zero => exact absurd h (by simp [fiLoopF])
  | succ fuel ih =>
      cases q with
      | nil =>
          simp only [fiLoopF] at h
          injection h with h
          subst h
          intro i hi
          exact absurd hi (by simp)
      | cons w rest =>
          simp only [fiLoopF] at h
          split at h
          · injection h with h
            subst h
            intro i hi
            obtain ⟨c', hc1, h1, h2, h3⟩ := fiCons_removal w _ s rest i hi
            exact ⟨w, c', hc1, h1, h2, h3⟩
          · cases hrec : fiLoopF csp fuel
                (fiCons w (getConsWithVar csp w) s rest).2.2.1
                (fiCons w (getConsWithVar csp w) s rest).2.1 with
            | none =>
                rw [hrec] at h
                exact absurd h (by simp)
            | some r' =>
                rw [hrec] at h
                dsimp only at h
                injection h with h
                subst h
                dsimp only
                intro i hi
                by_cases hlt : i < (fiCons w (getConsWithVar csp w) s rest).1.length
                · rw [getD_append_left _ _ i _ hlt,
                    take_append_left _ _ i (Nat.le_of_lt hlt)]
                  obtain ⟨c', hc1, h1, h2, h3⟩ := fiCons_removal w _ s rest i hlt
                  exact ⟨w, c', hc1, h1, h2, h3⟩
                · have hge := Nat.le_of_not_lt hlt
                  rw [getD_append_right _ _ i _ hge, take_append_right _ _ i hge,
                    replayPrunes_append,
                    ← fiCons_replay w (getConsWithVar csp w) s rest]
                  refine ih _ _ _ hrec _ ?_
                  rw [List.length_append] at hi
                  omega

/-! ## The claims -/

/-- C1 counterexample: called with no trigger on a one-variable CSP whose
single constraint is unary (scope `[0]`, only satisfying tuple `[2]`),
`prop_FI` returns success without pruning anything, yet value `1` of
variable `0` has no support in that constraint - the resulting state is
not generalized-arc-consistent.  `prop_FI` skips the case `v = w`, so a
unary constraint is never revised. -/
theorem C1_prop_FI_unary_not_gac :
    prop_FI ⟨[0], [⟨[0], [[2]]⟩]⟩ none ⟨[[1, 2]], [none]⟩ =
      (true, [], ⟨[[1, 2]], [none]⟩) ∧
    ¬ isGAC ⟨[0], [⟨[0], [[2]]⟩]⟩ ⟨[[1, 2]], [none]⟩ := by
  decide

/-- C1 (amended): if every constraint's scope offers, for each of its
variables, another distinct scope variable that is among the CSP's
variables (in particular no unary constraints), then a successful
pre-search `prop_FI` call (no trigger) leaves the domains
generalized-arc-consistent: every remaining value of every variable has
support in every constraint touching it. -/
theorem C1_prop_FI_pre_search_gac (csp : CSP) (s : State)
    (tr : List (Nat × Nat)) (s' : State)
    (harity : ∀ c ∈ csp.cons, ∀ v ∈ c.scope, ∃ w ∈ c.scope, w ≠ v ∧ w ∈ csp.vars)
    (h : prop_FI csp none s = (true, tr, s')) : isGAC csp s' := by
  have heq := prop_FI_eq csp none s
  rw [h] at heq
  intro c hc v hv d hd
  refine fiLoopF_main csp _ _ s _ heq rfl c hc v hv ?_ d hd
  obtain ⟨w, hw1, hw2, hw3⟩ := harity c hc v hv
  exact Or.inr ⟨w, hw1, hw2, by simpa [initQueue] using hw3⟩

theorem C1_prop_FI_pre_search_gac_witness :
    isGAC ⟨[0, 1], [⟨[0, 1], [[1, 2], [2, 1]]⟩]⟩
      ⟨[[1, 2], [1, 2]], [none, none]⟩ :=
  C1_prop_FI_pre_search_gac ⟨[0, 1], [⟨[0, 1], [[1, 2], [2, 1]]⟩]⟩
    ⟨[[1, 2], [1, 2]], [none, none]⟩ [] ⟨[[1, 2], [1, 2]], [none, none]⟩
    (by decide) (by decide)

/-- C2: every pruned value is inconsistent at the time of its removal.
A pair `(u, d)` pruned by `prop_FC` was rejected: among the relevant
constraints there is one whose sole unassigned variable is `u` and whose
full scope tuple, built from `d` and the assigned values (constant
throughout the call), fails `check`.  For `prop_FI`, the returned state is
exactly the pre-call state with the whole trace replayed (each loop step
performs one `pruneValue` per trace entry), so replaying the trace entries
strictly before the `i`-th one yields the domains current at the moment of
the `i`-th removal; at that moment the pruned pair `(v, d)` has no support
for `v` in some constraint touching another variable `w` (the one then
dequeued, which the `v = w` skip keeps distinct from `v`). -/
theorem C2_prop_soundness (csp : CSP) (newVar : Option Nat) (s : State)
    (u d : Nat) :
    ((u, d) ∈ (prop_FC csp newVar s).2.1 →
      ∃ c ∈ (match newVar with
             | none => csp.cons
             | some v => getConsWithVar csp v),
        getNUnasgn s c = 1 ∧ getUnasgnVars s c = [u] ∧
        checkOpt c (c.scope.map
          (fun w => if w = u then some d else assignedValue s w)) = false) ∧
    ((prop_FI csp newVar s).2.2 =
        replayPrunes s (prop_FI csp newVar s).2.1 ∧
      ∀ i, i < (prop_FI csp newVar s).2.1.length →
        ∃ w, ∃ c ∈ getConsWithVar csp w,
          ((prop_FI csp newVar s).2.1.getD i (0, 0)).1 ∈ c.scope ∧
          ((prop_FI csp newVar s).2.1.getD i (0, 0)).1 ≠ w ∧
          hasSupport c ((prop_FI csp newVar s).2.1.getD i (0, 0)).1
            ((prop_FI csp newVar s).2.1.getD i (0, 0)).2
            (replayPrunes s ((prop_FI csp newVar s).2.1.take i)) = false) := by
  refine ⟨?_, ?_, ?_⟩
  · intro hmem
    unfold prop_FC at hmem
    obtain ⟨c, hc1, hc2, hc3, hc4⟩ := fcLoop_trace _ s (u, d) hmem
    exact ⟨c, hc1, hc2, hc3, hc4⟩
  · exact fiLoopF_replay csp _ _ s _ (prop_FI_eq csp newVar s)
  · exact fiLoopF_removal csp _ _ s _ (prop_FI_eq csp newVar s)

theorem C2_prop_soundness_witness :
    (∃ c ∈ getConsWithVar ⟨[0, 1], [⟨[0, 1], [[1, 2], [2, 1]]⟩]⟩ 0,
      getNUnasgn ⟨[[1], [1, 2]], [some 1, none]⟩ c = 1 ∧
      getUnasgnVars ⟨[[1], [1, 2]], [some 1, none]⟩ c = [1] ∧
      checkOpt c (c.scope.map (fun w => if w = 1 then some 1 else
        assignedValue ⟨[[1], [1, 2]], [some 1, none]⟩ w)) = false) ∧
    (∃ w, ∃ c ∈ getConsWithVar ⟨[0, 1], [⟨[0, 1], [[1, 2], [2, 1]]⟩]⟩ w,
      ((prop_FI ⟨[0, 1], [⟨[0, 1], [[1, 2], [2, 1]]⟩]⟩ none
          ⟨[[1, 2, 3, 4], [1, 2, 3, 4]], [none, none]⟩).2.1.getD 0 (0, 0)).1 ∈
        c.scope ∧
      ((prop_FI ⟨[0, 1], [⟨[0, 1], [[1, 2], [2, 1]]⟩]⟩ none
          ⟨[[1, 2, 3, 4], [1, 2, 3, 4]], [none, none]⟩).2.1.getD 0 (0, 0)).1 ≠ w ∧
      hasSupport c
        ((prop_FI ⟨[0, 1], [⟨[0, 1], [[1, 2], [2, 1]]⟩]⟩ none
          ⟨[[1, 2, 3, 4], [1, 2, 3, 4]], [none, none]⟩).2.1.getD 0 (0, 0)).1
        ((prop_FI ⟨[0, 1], [⟨[0, 1], [[1, 2], [2, 1]]⟩]⟩ none
          ⟨[[1, 2, 3, 4], [1, 2, 3, 4]], [none, none]⟩).2.1.getD 0 (0, 0)).2
        (replayPrunes ⟨[[1, 2, 3, 4], [1, 2, 3, 4]], [none, none]⟩
          ((prop_FI ⟨[0, 1], [⟨[0, 1], [[1, 2], [2, 1]]⟩]⟩ none
            ⟨[[1, 2, 3, 4], [1, 2, 3, 4]], [none, none]⟩).2.1.take 0)) = false) :=
  ⟨(C2_prop_soundness ⟨[0, 1], [⟨[0, 1], [[1, 2], [2, 1]]⟩]⟩ (some 0)
      ⟨[[1], [1, 2]], [some 1, none]⟩ 1 1).1 (by decide),
   (C2_prop_soundness ⟨[0, 1], [⟨[0, 1], [[1, 2], [2, 1]]⟩]⟩ none
      ⟨[[1, 2, 3, 4], [1, 2, 3, 4]], [none, none]⟩ 0 0).2.2 0 (by decide)⟩

/-- C3: `prop_FC` coincides, on every CSP, trigger and state, with the
forward-checking procedure written from the specification's own words
(`prop_FC_spec`): relevant constraints, the processing of each constraint
with exactly one unassigned variable by scanning its current domain and
pruning rejected values into the trace, immediate failure on an emptied
domain with the trace so far, and success with the full trace. -/
theorem C3_prop_FC_refines_spec (csp : CSP) (newVar : Option Nat) (s : State) :
    prop_FC csp newVar s = prop_FC_spec csp newVar s := by
  unfold prop_FC prop_FC_spec
  exact fcLoop_eq_spec _ s

/-- C4 counterexample: `prop_FI` prunes the value currently assigned to a
variable.  Variable `0` is assigned `1` (and assignments never change
during the call), yet the pair `(0, 1)` is in the pruning trace. -/
theorem C4_prop_FI_prunes_assigned :
    (0, 1) ∈ (prop_FI ⟨[0, 1], [⟨[0, 1], []⟩]⟩ (some 1)
      ⟨[[1], [1]], [some 1, none]⟩).2.1 ∧
    assignedValue ⟨[[1], [1]], [some 1, none]⟩ 0 = some 1 ∧
    (prop_FI ⟨[0, 1], [⟨[0, 1], []⟩]⟩ (some 1)
      ⟨[[1], [1]], [some 1, none]⟩).2.2.assigns = [some 1, none] := by
  decide

/-- C4 (amended): `prop_BT` never prunes at all (its trace is always
empty), and every pair `(v, d)` in a `prop_FC` trace has `v` unassigned
(assignments are constant during the call), so neither `prop_BT` nor
`prop_FC` ever prunes the value currently assigned to a variable.
`prop_FI` violates the claim (`C4_prop_FI_prunes_assigned`). -/
theorem C4_prop_BT_FC_never_prune_assigned (csp : CSP) (newVar : Option Nat)
    (s : State) :
    (prop_BT csp newVar s).2.1 = [] ∧
    ∀ p ∈ (prop_FC csp newVar s).2.1, assignedValue s p.1 = none := by
  constructor
  · cases newVar <;> rfl
  · intro p hp
    unfold prop_FC at hp
    obtain ⟨c, _, _, hc3, _⟩ := fcLoop_trace _ s p hp
    have hm : p.1 ∈ getUnasgnVars s c := by
      rw [hc3]
      exact List.mem_singleton.mpr rfl
    exact Option.isNone_iff_eq_none.mp (List.mem_filter.mp hm).2

theorem C4_prop_BT_FC_never_prune_assigned_witness :
    assignedValue ⟨[[1], [1, 2]], [some 1, none]⟩ 1 = none :=
  (C4_prop_BT_FC_never_prune_assigned ⟨[0, 1], [⟨[0, 1], [[1, 2], [2, 1]]⟩]⟩
    (some 0) ⟨[[1], [1, 2]], [some 1, none]⟩).2 (1, 1) (by decide)

/-- C5 counterexample: a one-variable CSP with a unary constraint whose
only satisfying tuple is `[2]`, current domain `[1]`.  `prop_FC` (no
trigger) processes the unary constraint, prunes `1` and fails; `prop_FI`
never revises a unary constraint and returns success. -/
theorem C5_FC_fails_FI_succeeds :
    (prop_FC ⟨[0], [⟨[0], [[2]]⟩]⟩ none ⟨[[1]], [none]⟩).1 = false ∧
    (prop_FI ⟨[0], [⟨[0], [[2]]⟩]⟩ none ⟨[[1]], [none]⟩).1 = true := by
  decide

theorem prop_FC_fail_FI_fail_witness :
    (prop_FI ⟨[0, 1], [⟨[0, 1], [[2, 2]]⟩]⟩ (some 0)
      ⟨[[1], [1]], [some 1, none]⟩).1 = false :=
  prop_FC_fail_FI_fail ⟨[0, 1], [⟨[0, 1], [[2, 2]]⟩]⟩ (some 0)
    ⟨[[1], [1]], [some 1, none]⟩ (by decide) (by decide)
    (fun x hx => by cases hx; rfl) (fun h => Option.noConfusion h) (by decide)

/-- C6: `prop_FI` terminates on every CSP instance, state and trigger:
the worklist loop `fiLoopF`, given the fuel `fiFuel` (one more than the
sum of all current domain sizes plus the initial queue length), always
reaches a result rather than running out of fuel, and `prop_FI` is that
result.  Domains are finite and a variable is re-enqueued only after its
current domain strictly shrank, so the measure `totalDom + queue length`
strictly decreases at every dequeue. -/
theorem C6_prop_FI_terminates (csp : CSP) (newVar : Option Nat) (s : State) :
    ∃ r, fiLoopF csp (fiFuel s (initQueue csp newVar)) (initQueue csp newVar) s =
        some r ∧ prop_FI csp newVar s = r :=
  ⟨prop_FI csp newVar s, prop_FI_eq csp newVar s, rfl⟩

/-- C7: for every `prop_FC` or `prop_FI` call, on success or failure, the
assignments are untouched and, per variable and value as a set, the
pre-call current domain is exactly the returned current domain together
with the values the returned trace records for that variable - so
restoring the traced pairs (in any order) returns every current domain to
its exact pre-call state as a set, and nothing else in the domain store
changes. -/
theorem C7_prop_round_trip (csp : CSP) (newVar : Option Nat) (s : State) :
    ((prop_FC csp newVar s).2.2.assigns = s.assigns ∧
      ∀ v d, (d ∈ curDomain (prop_FC csp newVar s).2.2 v ∨
        (v, d) ∈ (prop_FC csp newVar s).2.1) ↔ d ∈ curDomain s v) ∧
    ((prop_FI csp newVar s).2.2.assigns = s.assigns ∧
      ∀ v d, (d ∈ curDomain (prop_FI csp newVar s).2.2 v ∨
        (v, d) ∈ (prop_FI csp newVar s).2.1) ↔ d ∈ curDomain s v) := by
  have heq := prop_FI_eq csp newVar s
  refine ⟨⟨?_, ?_⟩, ?_, ?_⟩
  · unfold prop_FC
    exact fcLoop_assigns _ s
  · intro v d
    constructor
    · rintro (h | h)
      · unfold prop_FC at h
        exact (fcLoop_sublist _ s v).subset h
      · unfold prop_FC at h
        exact fcLoop_trace_mem _ s (v, d) h
    · intro h
      unfold prop_FC
      exact fcLoop_mem _ s v d h
  · exact fiLoopF_assigns csp _ _ s _ heq
  · intro v d
    constructor
    · rintro (h | h)
      · exact (fiLoopF_sublist csp _ _ s _ heq v).subset h
      · exact fiLoopF_trace_mem csp _ _ s _ heq (v, d) h
    · exact fiLoopF_mem csp _ _ s _ heq v d

/-- C8: when the current domains hold no duplicates, a single `prop_FC`
or `prop_FI` call never prunes an absent value and never prunes a pair
twice: the returned trace has no duplicate pairs, and for every variable
the returned domain size plus the number of trace entries for that
variable equals the pre-call domain size (each `pruneValue` call removed
a value that was present, so the contract-violation branch of the
collaborator's `prune_value` is unreachable). -/
theorem C8_prop_no_duplicate_prunes (csp : CSP) (newVar : Option Nat)
    (s : State) (hnd : ∀ l ∈ s.doms, l.Nodup) :
    ((prop_FC csp newVar s).2.1.Nodup ∧
      ∀ v, curSize (prop_FC csp newVar s).2.2 v +
        ((prop_FC csp newVar s).2.1.filter
          (fun p => decide (p.1 = v))).length = curSize s v) ∧
    ((prop_FI csp newVar s).2.1.Nodup ∧
      ∀ v, curSize (prop_FI csp newVar s).2.2 v +
        ((prop_FI csp newVar s).2.1.filter
          (fun p => decide (p.1 = v))).length = curSize s v) := by
  have hnd' := curDomain_nodup_of_doms s hnd
  have heq := prop_FI_eq csp newVar s
  constructor
  · unfold prop_FC
    obtain ⟨_, h2, _, h4⟩ := fcLoop_c8 _ s hnd'
    exact ⟨h2, h4⟩
  · obtain ⟨_, g2, _, g4⟩ := fiLoopF_c8 csp _ _ s _ heq hnd'
    exact ⟨g2, g4⟩

theorem C8_prop_no_duplicate_prunes_witness :
    ((prop_FC ⟨[0, 1], [⟨[0, 1], [[1, 2], [2, 1]]⟩]⟩ (some 0)
        ⟨[[1], [1, 2]], [some 1, none]⟩).2.1.Nodup ∧
      ∀ v, curSize (prop_FC ⟨[0, 1], [⟨[0, 1], [[1, 2], [2, 1]]⟩]⟩ (some 0)
          ⟨[[1], [1, 2]], [some 1, none]⟩).2.2 v +
        ((prop_FC ⟨[0, 1], [⟨[0, 1], [[1, 2], [2, 1]]⟩]⟩ (some 0)
          ⟨[[1], [1, 2]], [some 1, none]⟩).2.1.filter
          (fun p => decide (p.1 = v))).length =
        curSize ⟨[[1], [1, 2]], [some 1, none]⟩ v) ∧
    ((prop_FI ⟨[0, 1], [⟨[0, 1], [[1, 2], [2, 1]]⟩]⟩ (some 0)
        ⟨[[1], [1, 2]], [some 1, none]⟩).2.1.Nodup ∧
      ∀ v, curSize (prop_FI ⟨[0, 1], [⟨[0, 1], [[1, 2], [2, 1]]⟩]⟩ (some 0)
          ⟨[[1], [1, 2]], [some 1, none]⟩).2.2 v +
        ((prop_FI ⟨[0, 1], [⟨[0, 1], [[1, 2], [2, 1]]⟩]⟩ (some 0)
          ⟨[[1], [1, 2]], [some 1, none]⟩).2.1.filter
          (fun p => decide (p.1 = v))).length =
        curSize ⟨[[1], [1, 2]], [some 1, none]⟩ v) :=
  C8_prop_no_duplicate_prunes ⟨[0, 1], [⟨[0, 1], [[1, 2], [2, 1]]⟩]⟩ (some 0)
    ⟨[[1], [1, 2]], [some 1, none]⟩ (by decide)

/-- C9: `prop_FI` is idempotent at its fixpoint.  If a call returns
success, immediately calling it again on the resulting state with the
same trigger returns success with an empty pruning trace: the worklist
invariant shows that at the end of a successful run every pair reachable
from the initial queue is fully supported, so the rerun revises without
pruning and drains its queue. -/
theorem C9_prop_FI_idempotent (csp : CSP) (newVar : Option Nat) (s : State)
    (tr : List (Nat × Nat)) (s' : State)
    (h : prop_FI csp newVar s = (true, tr, s')) :
    prop_FI csp newVar s' = (true, [], s') := by
  have heq := prop_FI_eq csp newVar s
  rw [h] at heq
  have hsupp : ∀ w ∈ initQueue csp newVar, ∀ c ∈ getConsWithVar csp w,
      ∀ v ∈ c.scope, v ≠ w → Supported c v s' := by
    intro w hw c hc v hv hvw
    have hccons : c ∈ csp.cons := (List.mem_filter.mp hc).1
    have hwscope : w ∈ c.scope := by
      have := (List.mem_filter.mp hc).2
      simpa using this
    exact fiLoopF_main csp _ _ s _ heq rfl c hccons v hv
      (Or.inr ⟨w, hwscope, Ne.symm hvw, hw⟩)
  have hnoop := fiLoopF_noop csp (fiFuel s' (initQueue csp newVar))
    (initQueue csp newVar) s' (by unfold fiFuel; omega) hsupp
  unfold prop_FI
  rw [hnoop]
  rfl

theorem C9_prop_FI_idempotent_witness :
    prop_FI ⟨[0], ([] : List Constraint)⟩ none ⟨[[1]], [none]⟩ =
      (true, [], ⟨[[1]], [none]⟩) :=
  C9_prop_FI_idempotent ⟨[0], []⟩ none ⟨[[1]], [none]⟩ [] ⟨[[1]], [none]⟩
    (by decide)

/-- C10: the satisfying-tuple set `caged_csp` builds for a subtraction
cage (operation code 1) or a division cage (operation code 2) over the
grid domain `1..n` is exactly the permutation closure of the tuples
passing the arithmetic test: a tuple is accepted iff its entries lie in
the domain, it has the cage's length, and some ordering `p` of it
satisfies `p[0] - sum(p[1:]) = target` (respectively
`p[0] / prod(p[1:]) = target`); consequently the set is closed under
permutation, so the positional order of the cage's cells never affects
whether an assignment satisfies the cage constraint. -/
theorem C10_caged_sub_div_perm_closed (n k : Nat) (target : Int)
    (u u' : List Int) :
    (u ∈ cageSatTuples (subPred target) (puzzleDom n) k ↔
      u.length = k ∧ (∀ x ∈ u, x ∈ puzzleDom n) ∧
        ∃ p, List.Perm p u ∧ subPred target p = true) ∧
    (u ∈ cageSatTuples (divPred target) (puzzleDom n) k ↔
      u.length = k ∧ (∀ x ∈ u, x ∈ puzzleDom n) ∧
        ∃ p, List.Perm p u ∧ divPred target p = true) ∧
    (u ∈ cageSatTuples (subPred target) (puzzleDom n) k → List.Perm u' u →
      u' ∈ cageSatTuples (subPred target) (puzzleDom n) k) ∧
    (u ∈ cageSatTuples (divPred target) (puzzleDom n) k → List.Perm u' u →
      u' ∈ cageSatTuples (divPred target) (puzzleDom n) k) := by
  have hgen : ∀ pred : List Int → Bool,
      u ∈ cageSatTuples pred (puzzleDom n) k → List.Perm u' u →
        u' ∈ cageSatTuples pred (puzzleDom n) k := by
    intro pred hu hperm
    rw [mem_cageSatTuples] at hu ⊢
    obtain ⟨hlen, hmem, p, hp, hpred⟩ := hu
    exact ⟨hperm.length_eq.trans hlen,
      fun x hx => hmem x (hperm.mem_iff.mp hx),
      p, hp.trans hperm.symm, hpred⟩
  exact ⟨mem_cageSatTuples _ _ _ u, mem_cageSatTuples _ _ _ u,
    hgen _, hgen _⟩

theorem C10_caged_sub_div_perm_closed_witness :
    [2, 1] ∈ cageSatTuples (subPred 1) (puzzleDom 3) 2 ∧
    [2, 1] ∈ cageSatTuples (divPred 2) (puzzleDom 3) 2 :=
  ⟨(C10_caged_sub_div_perm_closed 3 2 1 [1, 2] [2, 1]).2.2.1
      (by decide) (List.Perm.swap 1 2 []),
   (C10_caged_sub_div_perm_closed 3 2 2 [1, 2] [2, 1]).2.2.2
      ((mem_cageSatTuples (divPred 2) (puzzleDom 3) 2 [1, 2]).mpr
        ⟨rfl, by decide, [2, 1], List.Perm.swap 1 2 ([] : List Int), by
          norm_num [divPred, List.map_cons, List.map_nil, List.prod_cons,
            List.prod_nil]⟩)
      (List.Perm.swap 1 2 [])⟩
